import Mathlib

/-!
Verification development for the client-side file-tree and listing model of the
"virtual data room" React application (`src/app/App.tsx`,
`src/app/components/TreeView.tsx`, `src/app/components/FileList.tsx`,
`src/app/components/SemanticSearchResults.tsx`).

Modelling conventions for the shallow embedding:

* JavaScript strings are Lean `String`s.  The operations the code relies on
  (`split`, `toLowerCase`, `toUpperCase`, `includes`, `trim`, `localeCompare`)
  are implemented here by structural recursion over the character list so that
  they evaluate inside the kernel.  `localeCompare` with the default locale is
  modelled as lexicographic comparison of character codes (`lexCmp`), which is
  its behaviour on the ASCII paths and names the application handles.
* JavaScript numbers holding byte counts and millisecond timestamps are `Nat`.
  The only floating-point computation in scope, `formatFileSize`, keeps the
  running value `size` exactly equal to `bytes / 1024^unitIndex`; the embedding
  therefore carries the pair `(bytes, unitIndex)` and performs the comparison
  and the `toFixed(2)` rounding with exact integer arithmetic.
* `Array.prototype.sort` (guaranteed stable in modern JS) is modelled by the
  stable insertion sort `ssort` with the same comparator-based semantics.
* A `FileNode` object may or may not have a `children` field; this is the
  `Kids` type below (`absent` = no field, `present` = an array, possibly
  empty).  Because Lean 4.14 does not support structural recursion through
  nested inductives, `FileNode`/`Kids`/`NodeList` form a mutual inductive
  family; `NodeList.toList`/`NodeList.ofList` mediate to ordinary lists.
  The opaque `handle` field is not modelled: no property in scope reads it.
-/
/-- Lexicographic comparison of character lists by character code; the model of
`String.prototype.localeCompare` (default locale, ASCII data), returning a
negative, zero or positive number. -/
def lexCmp : List Char → List Char → Int
  | [], [] => 0
  | [], _ :: _ => -1
  | _ :: _, [] => 1
  | a :: as, b :: bs =>
    if a.toNat < b.toNat then -1 else if b.toNat < a.toNat then 1 else lexCmp as bs

/-- `a.localeCompare(b)` on strings. -/
def scmp (a b : String) : Int := lexCmp a.data b.data

/-- `s.toLowerCase()` (ASCII). -/
def lowerStr (s : String) : String := ⟨s.data.map Char.toLower⟩

/-- `s.toUpperCase()` (ASCII). -/
def upperStr (s : String) : String := ⟨s.data.map Char.toUpper⟩

/-- Split a character list on a separator character; `"".split(sep)`
conventions of JavaScript: the result is always non-empty, and empty segments
are kept. -/
def splitCh (sep : Char) : List Char → List (List Char)
  | [] => [[]]
  | c :: rest =>
    match splitCh sep rest with
    | [] => [[c]]
    | s :: ss => if c = sep then [] :: s :: ss else (c :: s) :: ss

/-- `s.split(sep)` for a single-character separator. -/
def splitStr (sep : Char) (s : String) : List String := (splitCh sep s.data).map (fun l => ⟨l⟩)

/-- `s.trim()` restricted to ordinary spaces, which is all the claims need. -/
def trimStr (s : String) : String :=
  ⟨((s.data.dropWhile (· = ' ')).reverse.dropWhile (· = ' ')).reverse⟩

/-- Is `p` a (contiguous, initial) prefix of `l`?  Helper for `inclCh`. -/
def headMatches : List Char → List Char → Bool
  | [], _ => true
  | _ :: _, [] => false
  | a :: as, b :: bs => a = b && headMatches as bs

/-- Does `l` contain `sub` as a contiguous sublist?  Model of
`String.prototype.includes` on the underlying characters. -/
def inclCh (sub : List Char) : List Char → Bool
  | [] => headMatches sub []
  | c :: t => headMatches sub (c :: t) || inclCh sub t

/-- `s.includes(sub)`. -/
def strIncludes (s sub : String) : Bool := inclCh sub.data s.data

/-- Insert `a` into `l` directly before the first element `b` with
`cmp a b < 0`; the insertion step of a stable comparator sort. -/
def insertCmp (cmp : α → α → Int) (a : α) : List α → List α
  | [] => [a]
  | b :: bs => if cmp a b < 0 then a :: b :: bs else b :: insertCmp cmp a bs

/-- Stable comparator sort: the model of `Array.prototype.sort(cmp)` (stable
per the ECMAScript specification; for a consistent comparator the stable sorted
arrangement is unique, so any stable algorithm is observationally the same). -/
def ssort (cmp : α → α → Int) (l : List α) : List α :=
  l.foldl (fun acc a => insertCmp cmp a acc) []

/-- Join path segments with `"/"`; left inverse of splitting on `"/"`. -/
def joinSegs : List String → String
  | [] => ""
  | s :: rest => rest.foldl (fun acc seg => acc ++ "/" ++ seg) s

mutual
/-- The `FileNode` interface of `TreeView.tsx`: `name`, `path`, `isDirectory`,
optional `size` and `lastModified`, and an optional `children` array.  The
opaque `handle` is not modelled. -/
inductive FileNode where
  | mk (name : String) (path : String) (isDirectory : Bool)
       (size : Option Nat) (lastModified : Option Nat) (children : Kids) : FileNode

/-- Presence or absence of the `children` field on a `FileNode`. -/
inductive Kids where
  | absent : Kids
  | present (l : NodeList) : Kids

/-- A `FileNode[]` array, as a mutual inductive so that structural recursion
through the tree is available. -/
inductive NodeList where
  | nil : NodeList
  | cons (head : FileNode) (tail : NodeList) : NodeList
end

def FileNode.name : FileNode → String
  | .mk n _ _ _ _ _ => n

def FileNode.path : FileNode → String
  | .mk _ p _ _ _ _ => p

def FileNode.isDirectory : FileNode → Bool
  | .mk _ _ d _ _ _ => d

def FileNode.size : FileNode → Option Nat
  | .mk _ _ _ s _ _ => s

def FileNode.lastModified : FileNode → Option Nat
  | .mk _ _ _ _ m _ => m

def FileNode.children : FileNode → Kids
  | .mk _ _ _ _ _ k => k

def NodeList.toList : NodeList → List FileNode
  | .nil => []
  | .cons h t => h :: t.toList

def NodeList.ofList : List FileNode → NodeList
  | [] => .nil
  | h :: t => .cons h (NodeList.ofList t)

/-- `node.children?.length || 0`. -/
def FileNode.childCount (n : FileNode) : Nat :=
  match n.children with
  | .absent => 0
  | .present l => l.toList.length

mutual
/-- `flattenFiles` from `App.tsx`: the node itself, followed by the recursive
flattening of each child in order (`if (node.children)` is true for any
present array, including an empty one). -/
def flattenFiles : FileNode → List FileNode
  | .mk n p d s m k => .mk n p d s m k :: flattenKids k

def flattenKids : Kids → List FileNode
  | .absent => []
  | .present l => flattenNodeList l

def flattenNodeList : NodeList → List FileNode
  | .nil => []
  | .cons h t => flattenFiles h ++ flattenNodeList t
end

mutual
/-- Number of directory nodes (`isDirectory = true`) in a tree. -/
def numDirs : FileNode → Nat
  | .mk _ _ d _ _ k => (if d then 1 else 0) + numDirsKids k

def numDirsKids : Kids → Nat
  | .absent => 0
  | .present l => numDirsList l

def numDirsList : NodeList → Nat
  | .nil => 0
  | .cons h t => numDirs h + numDirsList t
end

mutual
/-- Number of non-directory (file) nodes in a tree. -/
def numFiles : FileNode → Nat
  | .mk _ _ d _ _ k => (if d then 0 else 1) + numFilesKids k

def numFilesKids : Kids → Nat
  | .absent => 0
  | .present l => numFilesList l

def numFilesList : NodeList → Nat
  | .nil => 0
  | .cons h t => numFiles h + numFilesList t
end

/-- The membership relation "node `m` occurs in the tree rooted at `t`"
(reflexively, through `children`). -/
inductive Subnode : FileNode → FileNode → Prop where
  | refl (t : FileNode) : Subnode t t
  | child {m c t : FileNode} {l : NodeList} (hk : t.children = .present l)
      (hc : c ∈ l.toList) (h : Subnode m c) : Subnode m t

/-- The child-ordering comparator of `sortChildren` in `buildFileTree` and of
`traverseDirectory`: directories first, then `localeCompare` on names. -/
def childSortCmp (a b : FileNode) : Int :=
  if a.isDirectory && !b.isDirectory then -1
  else if !a.isDirectory && b.isDirectory then 1
  else scmp a.name b.name

mutual
/-- `sortChildren` from `buildFileTree`: recursively sort every present
children array with `childSortCmp`.  (The source sorts an array in place and
then recurses into each element; the comparator reads only `isDirectory` and
`name`, which the recursion preserves, so recursing first and then sorting is
the same function.) -/
def sortChildren : FileNode → FileNode
  | .mk n p d s m k => .mk n p d s m (sortKids k)

def sortKids : Kids → Kids
  | .absent => .absent
  | .present l => .present (NodeList.ofList (ssort childSortCmp (NodeList.toList (sortEach l))))

def sortEach : NodeList → NodeList
  | .nil => .nil
  | .cons h t => .cons (sortChildren h) (sortEach t)
end

mutual
/-- `getAllDirectoryPaths` from `TreeView.tsx`, restricted to one node:
pre-order collection of the paths of all directory nodes. -/
def dirPathsNode : FileNode → List String
  | .mk _ p d _ _ k => if d then p :: dirPathsKids k else []

def dirPathsKids : Kids → List String
  | .absent => []
  | .present l => dirPathsList l

def dirPathsList : NodeList → List String
  | .nil => []
  | .cons h t => dirPathsNode h ++ dirPathsList t
end

/-- `getAllDirectoryPaths(nodes)` from `TreeView.tsx`. -/
def getAllDirectoryPaths (nodes : List FileNode) : List String :=
  nodes.flatMap dirPathsNode

/-! ### The expanded-directory set of `TreeView.tsx`

A JS `Set<string>` is modelled as a duplicate-free `List String` in insertion
order. -/
/-- `set.add(p)` (no-op when present). -/
def setAdd (s : List String) (p : String) : List String :=
  if s.contains p then s else s ++ [p]

/-- `set.delete(p)`. -/
def setDelete (s : List String) (p : String) : List String := s.filter (· ≠ p)

/-- `toggleDirectory(path)`: flip membership of `path` in the expanded set
(this is both the internal implementation and the behaviour required of an
external `onToggleDirectory` handler). -/
def toggleSet (s : List String) (p : String) : List String :=
  if s.contains p then setDelete s p else setAdd s p

/-- `new Set(paths)`: deduplicate, keeping first occurrences. -/
def newSetOf (paths : List String) : List String := paths.foldl setAdd []

/-- `expandAll` in internal-state mode: `setInternalExpandedDirs(new
Set(getAllDirectoryPaths(nodes)))`. -/
def expandAllInternal (nodes : List FileNode) : List String :=
  newSetOf (getAllDirectoryPaths nodes)

/-- `expandAll` in external-toggle mode: for each directory path not in the
`expandedDirs` snapshot, call the external toggle on the evolving set. -/
def expandAllExternal (expandedDirs : List String) (nodes : List FileNode) : List String :=
  (getAllDirectoryPaths nodes).foldl
    (fun acc p => if expandedDirs.contains p then acc else toggleSet acc p) expandedDirs

/-- `collapseAll` in internal-state mode: `setInternalExpandedDirs(new Set())`. -/
def collapseAllInternal : List String := []

/-- `collapseAll` in external-toggle mode: toggle every path of the
`expandedDirs` snapshot on the evolving set. -/
def collapseAllExternal (expandedDirs : List String) : List String :=
  expandedDirs.foldl (fun acc p => toggleSet acc p) expandedDirs

/-! ### `FileList.tsx` -/
/-- The `FileSummary` record of `App.tsx` (the float `duration` is carried as
a `Nat`; no property in scope computes with it). -/
structure FileSummary where
  filePath : String
  fileName : String
  fileSize : Nat
  lastModifiedTime : Nat
  fileType : String
  summary : String
  duration : Nat
deriving DecidableEq

/-- The units array of `formatFileSize`. -/
def fmtUnits : List String := ["B", "KB", "MB", "GB", "TB"]

/-- The division loop of `formatFileSize`.  After `unitIndex` steps the JS
variable `size` equals `bytes / 1024^unitIndex` exactly, so the guard
`size >= 1024` is `1024^(unitIndex+1) ≤ bytes`.  The loop body runs at most
`fmtUnits.length - 1 = 4` times (the index strictly increases and is bounded),
which the fuel makes structural. -/
def sizeLoop : Nat → Nat → Nat → Nat
  | 0, _, unitIndex => unitIndex
  | fuel + 1, bytes, unitIndex =>
    if 1024 ^ (unitIndex + 1) ≤ bytes ∧ unitIndex < fmtUnits.length - 1 then
      sizeLoop fuel bytes (unitIndex + 1)
    else unitIndex

/-- `(num / den).toFixed(2)` for the exact rational `num / den` (`den > 0`):
round half up to two decimals with integer arithmetic, then print. -/
def toFixed2 (num den : Nat) : String :=
  let n := (200 * num + den) / (2 * den)
  Nat.repr (n / 100) ++ "." ++
    (if n % 100 < 10 then "0" ++ Nat.repr (n % 100) else Nat.repr (n % 100))

/-- `formatFileSize` from `FileList.tsx` (`!bytes` is true for an absent value
and for `0`). -/
def formatFileSize : Option Nat → String
  | none => "—"
  | some bytes =>
    if bytes = 0 then "—"
    else
      let unitIndex := sizeLoop 4 bytes 0
      toFixed2 bytes (1024 ^ unitIndex) ++ " " ++ fmtUnits.getD unitIndex ""

/-- `getFileExtension` from `FileList.tsx`. -/
def getFileExtension (filename : String) : String :=
  let parts := splitStr '.' filename
  if parts.length > 1 then upperStr (parts.getLastD "") else "—"

/-- The synthesized-summary fallback inside `generateSummary`. -/
def generateSummaryFallback (file : FileNode) : String :=
  if file.isDirectory then
    "Folder containing " ++ Nat.repr file.childCount ++ " items"
  else
    let ext := lowerStr ((splitStr '.' file.name).getLastD "")
    let sizeStr := formatFileSize file.size
    if ["jpg", "jpeg", "png", "gif", "bmp", "webp"].contains ext then
      "Image file (" ++ upperStr ext ++ "), " ++ sizeStr
    else if ["txt", "md"].contains ext then "Text document, " ++ sizeStr
    else if ["js", "jsx", "ts", "tsx"].contains ext then
      "JavaScript/TypeScript file, " ++ sizeStr
    else if ["json", "xml", "csv"].contains ext then
      "Data file (" ++ upperStr ext ++ "), " ++ sizeStr
    else if ["pdf"].contains ext then "PDF document, " ++ sizeStr
    else if ["doc", "docx"].contains ext then "Word document, " ++ sizeStr
    else if ["xls", "xlsx"].contains ext then "Excel spreadsheet, " ++ sizeStr
    else (if upperStr ext ≠ "" then upperStr ext else "Unknown") ++ " file, " ++ sizeStr

/-- `generateSummary` from `FileList.tsx`: prefer the external summary matched
by exact path (when its text is non-empty, i.e. truthy), else synthesize. -/
def generateSummary (summaries : List FileSummary) (file : FileNode) : String :=
  match summaries.find? (fun s => s.filePath == file.path) with
  | some apiSummary =>
    if apiSummary.summary ≠ "" then apiSummary.summary else generateSummaryFallback file
  | none => generateSummaryFallback file

/-- The sortable columns of `FileList.tsx`. -/
inductive SortColumn where
  | name | type | size | lastModified | summary | path
deriving DecidableEq

/-- Sort direction. -/
inductive SortDirection where
  | asc | desc
deriving DecidableEq

/-- The value a row contributes under a sort column (a string or a number,
matching the `aValue`/`bValue` locals of `sortedFiles`). -/
inductive SortVal where
  | str (v : String)
  | num (v : Nat)
deriving DecidableEq

/-- The `aValue`/`bValue` computation of `sortedFiles` (missing numeric values
become `0` via `|| 0`). -/
def sortVal (summaries : List FileSummary) : SortColumn → FileNode → SortVal
  | .name, f => .str (lowerStr f.name)
  | .type, f => .str (if f.isDirectory then "folder" else lowerStr (getFileExtension f.name))
  | .size, f => .num (f.size.getD 0)
  | .lastModified, f => .num (f.lastModified.getD 0)
  | .summary, f => .str (lowerStr (generateSummary summaries f))
  | .path, f => .str (lowerStr f.path)

/-- The comparator body of `sortedFiles`: `localeCompare` for strings (negated
for descending), subtraction for numbers (swapped for descending).  A `none`
column returns `0` for every pair, leaving the order unchanged. -/
def fileSortCmp (summaries : List FileSummary) (sortColumn : Option SortColumn)
    (sortDirection : SortDirection) (a b : FileNode) : Int :=
  match sortColumn with
  | none => 0
  | some col =>
    match sortVal summaries col a, sortVal summaries col b with
    | .str av, .str bv =>
      match sortDirection with
      | .asc => scmp av bv
      | .desc => -(scmp av bv)
    | .num av, .num bv =>
      match sortDirection with
      | .asc => (av : Int) - bv
      | .desc => (bv : Int) - av
    | _, _ => 0

/-- `sortedFiles` from `FileList.tsx`: `[...files].sort(cmp)` — a stable sort
of a copy of the input. -/
def sortedFiles (summaries : List FileSummary) (sortColumn : Option SortColumn)
    (sortDirection : SortDirection) (files : List FileNode) : List FileNode :=
  ssort (fileSortCmp summaries sortColumn sortDirection) files

/-! ### A small mutable-array model for the frame property of `sortedFiles`

JS arrays live in a heap; `[...files]` allocates a fresh array and
`Array.prototype.sort` mutates its receiver in place.  The heap is a list of
arrays indexed by allocation order, so that sorting in place on the caller's
reference (the behaviour the specification forbids) would be observable. -/
/-- `const sortedFiles = [...files].sort(cmp)` against a heap of arrays:
read the caller's array at `ref`, allocate the spread copy, sort the copy in
place, and return the updated heap with the reference to the sorted copy. -/
def sortedFilesRender (summaries : List FileSummary) (sortColumn : Option SortColumn)
    (sortDirection : SortDirection) (heap : List (List FileNode)) (ref : Nat) :
    List (List FileNode) × Nat :=
  let filesArr := (heap.get? ref).getD []
  let copyRef := heap.length
  let heap₁ := heap ++ [filesArr]
  let heap₂ := heap₁.set copyRef (ssort (fileSortCmp summaries sortColumn sortDirection) filesArr)
  (heap₂, copyRef)

/-! ### The two `filteredFiles` variants -/
/-- `filteredFiles` from `SemanticSearchResults.tsx`: flatten the loaded tree
and keep nodes that have an external summary by exact path and whose name
contains the search text case-insensitively. -/
def filteredFilesSemantic (rootDirectory : Option FileNode) (summaries : List FileSummary)
    (searchQuery : String) : List FileNode :=
  match rootDirectory with
  | none => []
  | some root =>
    (flattenFiles root).filter (fun file =>
      (summaries.any (fun s => s.filePath == file.path)) &&
      strIncludes (lowerStr file.name) (lowerStr searchQuery))

/-- `filteredFiles` from `App.tsx`: flatten the loaded tree and keep nodes
whose name contains the search text case-insensitively (no summary condition). -/
def filteredFilesApp (rootDirectory : Option FileNode) (searchQuery : String) : List FileNode :=
  match rootDirectory with
  | none => []
  | some root =>
    (flattenFiles root).filter (fun file =>
      strIncludes (lowerStr file.name) (lowerStr searchQuery))

/-! ### `App.tsx` orchestration (API-backed variant) -/
mutual
/-- The `ApiFileNode` JSON shape returned by `POST /api/v1/tree`. -/
inductive ApiFileNode where
  | mk (file_path : String) (file_name : String) (file_size : Nat)
       (last_modified_time : Nat) (file_type : String) (children : ApiChildren) : ApiFileNode

/-- `children: recursive-array | null`. -/
inductive ApiChildren where
  | null : ApiChildren
  | arr (l : ApiList) : ApiChildren

/-- An `ApiFileNode[]` array. -/
inductive ApiList where
  | nil : ApiList
  | cons (head : ApiFileNode) (tail : ApiList) : ApiList
end

def ApiList.toList : ApiList → List ApiFileNode
  | .nil => []
  | .cons h t => h :: t.toList

mutual
/-- `convertApiNodeToFileNode` from `App.tsx`: direct structural mapping;
timestamps arrive in seconds and are scaled by 1000. -/
def convertApiNodeToFileNode : ApiFileNode → FileNode
  | .mk fp fn fs lm ft ch =>
    .mk fn fp (ft == "directory") (some fs) (some (lm * 1000)) (convertApiChildren ch)

def convertApiChildren : ApiChildren → Kids
  | .null => .absent
  | .arr l => .present (convertApiList l)

def convertApiList : ApiList → NodeList
  | .nil => .nil
  | .cons h t => .cons (convertApiNodeToFileNode h) (convertApiList t)
end

/-- The `SummarizeResponse` JSON shape of `POST /api/v1/summarize/folder`. -/
structure SummarizeResponse where
  summaries : List FileSummary
  duration : Nat

/-- The pieces of `App.tsx` component state that the load/regenerate actions
read and write. -/
structure AppState where
  rootDirectory : Option FileNode
  summaries : List FileSummary
  error : Option String
  isLoading : Bool

/-- The root node `App.tsx` builds around an API tree response:
`name: folderPath.split("/").pop() || folderPath`, `path: folderPath`. -/
def apiRootNode (folderPath : String) (treeData : List ApiFileNode) : FileNode :=
  let popped := (splitStr '/' folderPath).getLastD ""
  .mk (if popped = "" then folderPath else popped) folderPath true none none
    (.present (NodeList.ofList (treeData.map convertApiNodeToFileNode)))

/-- `handleLoadFolder` from `App.tsx`, as a function of the prior state and of
the outcomes of the two HTTP requests (`Except.error` covers a non-2xx status
as well as a network or parse failure, carrying the thrown message).  The
empty-path guard returns before touching the loading flag; any thrown error is
caught by setting the message, clearing the tree and emptying the summaries;
`finally` clears the loading flag. -/
def handleLoadFolder (st : AppState) (folderPath : String)
    (treeResp : Except String (List ApiFileNode))
    (summaryResp : Except String SummarizeResponse) : AppState :=
  if trimStr folderPath = "" then { st with error := some "Please enter a folder path" }
  else
    let st₁ : AppState := { st with isLoading := true, error := none }
    match treeResp with
    | .error msg =>
      { st₁ with error := some msg, rootDirectory := none, summaries := [], isLoading := false }
    | .ok treeData =>
      if treeData.length = 0 then
        { st₁ with error := some "No data returned from tree API", rootDirectory := none,
                   summaries := [], isLoading := false }
      else
        match summaryResp with
        | .error msg =>
          { st₁ with error := some msg, rootDirectory := none, summaries := [],
                     isLoading := false }
        | .ok summaryData =>
          { st₁ with rootDirectory := some (apiRootNode folderPath treeData),
                     summaries := summaryData.summaries, error := none, isLoading := false }

/-- `handleRegenerate` from `App.tsx`: guarded by a non-empty trimmed path and
a loaded tree; no empty-tree check; the catch block sets only the error
message (tree and summaries keep their previous values); `finally` clears the
loading flag. -/
def handleRegenerate (st : AppState) (folderPath : String)
    (treeResp : Except String (List ApiFileNode))
    (summaryResp : Except String SummarizeResponse) : AppState :=
  if trimStr folderPath = "" || st.rootDirectory.isNone then st
  else
    let st₁ : AppState := { st with isLoading := true, error := none }
    match treeResp with
    | .error msg => { st₁ with error := some msg, isLoading := false }
    | .ok treeData =>
      match summaryResp with
      | .error msg => { st₁ with error := some msg, isLoading := false }
      | .ok summaryData =>
        { st₁ with rootDirectory := some (apiRootNode folderPath treeData),
                   summaries := summaryData.summaries, error := none, isLoading := false }

/-! ### `traverseDirectory` (native directory-picker variant of `App.tsx`)

The input is the abstract directory structure behind a
`FileSystemDirectoryHandle`: entry names with sizes and timestamps for files,
in the handle's iteration order. -/
mutual
/-- A filesystem entry as seen through the native handle API. -/
inductive FsNode where
  | dir (name : String) (entries : FsList) : FsNode
  | file (name : String) (size : Nat) (lastModified : Nat) : FsNode

/-- A list of sibling entries in iteration order. -/
inductive FsList where
  | nil : FsList
  | cons (head : FsNode) (tail : FsList) : FsList
end

mutual
/-- `traverseDirectory(dirHandle, path)` from `App.tsx`.  A directory entry
recurses with `currentPath`; a file entry becomes a leaf at
`currentPath + "/" + name`; the collected children are sorted
directories-first then by name.  (`path ? ... : dirHandle.name` tests string
truthiness, i.e. `path = ""`.) -/
def traverseDirectory : FsNode → String → FileNode
  | .file n s m, currentPath =>
    .mk n (currentPath ++ "/" ++ n) false (some s) (some m) .absent
  | .dir n es, path =>
    let currentPath := if path = "" then n else path ++ "/" ++ n
    .mk n currentPath true none none
      (.present (NodeList.ofList (ssort childSortCmp (traverseEntries es currentPath))))

def traverseEntries : FsList → String → List FileNode
  | .nil, _ => []
  | .cons e t, currentPath => traverseDirectory e currentPath :: traverseEntries t currentPath
end

/-! ### `buildFileTree` (manual file-input fallback of `App.tsx`)

The source builds the tree imperatively: a `Map` from accumulated path to the
node object, and `push` into the parent object's `children` array.  Every node
object is allocated exactly once and pushed into at most one `children` array,
at its own creation time, so the children of a node appear in allocation
order.  The embedding therefore keeps an append-only store of node records in
allocation order; `parent := some pid` records that the object was pushed into
the `children` array of object `pid` (and `none` that the push was skipped
because `parent && parent.children` failed).  `reifyF` reconstructs the
`FileNode` tree exactly as reading the mutated object graph from the root
would. -/
/-- One allocated node object of `buildFileTree`. -/
structure NodeRec where
  name : String
  path : String
  isDirectory : Bool
  size : Option Nat
  lastModified : Option Nat
  hasChildren : Bool
  parent : Option Nat
deriving DecidableEq

/-- The builder state: the object store in allocation order and the
`nodeMap`, with later bindings first (`Map.set` overwrites = shadowing). -/
structure BuildState where
  store : List NodeRec
  nodeMap : List (String × Nat)

/-- `Map.get`: the most recent binding. -/
def mapLookup (k : String) : List (String × Nat) → Option Nat
  | [] => none
  | (k', v) :: t => if k' = k then some v else mapLookup k t

/-- The root object of `buildFileTree`. -/
def rootRec : NodeRec :=
  { name := "Selected Directory", path := "root", isDirectory := true,
    size := none, lastModified := none, hasChildren := true, parent := none }

/-- The initial builder state: the root object, bound to `"root"`. -/
def initialBuildState : BuildState := { store := [rootRec], nodeMap := [("root", 0)] }

/-- The outcome of `const parent = nodeMap.get(parentKey); if (parent &&
parent.children) parent.children.push(node)` run right after
`nodeMap.set(key, node)` (so the lookup can hit the binding just written):
`some pid` when the new object was pushed into the `children` array of object
`pid`, `none` when the push was skipped. -/
def pushPar (st : BuildState) (key : String) (parentKey : String) (node : NodeRec) :
    Option Nat :=
  let newId := st.store.length
  match mapLookup parentKey ((key, newId) :: st.nodeMap) with
  | none => none
  | some pid =>
    let parentHasChildren :=
      if pid = newId then node.hasChildren
      else match st.store.get? pid with
        | some r => r.hasChildren
        | none => false
    if parentHasChildren then some pid else none

/-- Allocate `node`, run `nodeMap.set(key, node)` and then the guarded push
into the parent's `children` array, in source order. -/
def pushNode (st : BuildState) (key : String) (parentKey : String) (node : NodeRec) :
    BuildState :=
  { store := st.store ++ [{ node with parent := pushPar st key parentKey node }],
    nodeMap := (key, st.store.length) :: st.nodeMap }

/-- The `for` loop of `buildFileTree` over the non-terminal path segments:
walk/create intermediate directory nodes keyed by the accumulated path. -/
def insertDirs : BuildState → String → List String → BuildState × String
  | st, currentPath, [] => (st, currentPath)
  | st, currentPath, part :: rest =>
    let parentPath := currentPath
    let currentPath' := if currentPath = "root" then part else currentPath ++ "/" ++ part
    let st' :=
      if (mapLookup currentPath' st.nodeMap).isSome then st
      else
        pushNode st currentPath' parentPath
          { name := part, path := currentPath', isDirectory := true, size := none,
            lastModified := none, hasChildren := true, parent := none }
    insertDirs st' currentPath' rest

/-- One input entry of the fallback builder: `file.webkitRelativePath ||
file.name`, `file.size`, `file.lastModified`. -/
structure InputFile where
  relativePath : String
  size : Nat
  lastModified : Nat
deriving DecidableEq

/-- The `forEach` body of `buildFileTree`: create missing parent directories,
then the file node at the accumulated path. -/
def processFile (st : BuildState) (file : InputFile) : BuildState :=
  let parts := splitStr '/' file.relativePath
  let stepped := insertDirs st "root" parts.dropLast
  let fileName := parts.getLastD ""
  let filePath :=
    if stepped.2 = "root" then fileName else stepped.2 ++ "/" ++ fileName
  pushNode stepped.1 filePath stepped.2
    { name := fileName, path := filePath, isDirectory := false, size := some file.size,
      lastModified := some file.lastModified, hasChildren := false, parent := none }

/-- The input pre-sort of `buildFileTree`:
`[...files].sort((a, b) => aPath.localeCompare(bPath))`. -/
def inputCmp (a b : InputFile) : Int := scmp a.relativePath b.relativePath

/-- Run the sorted `forEach` of `buildFileTree` from the initial state. -/
def buildStore (files : List InputFile) : BuildState :=
  (ssort inputCmp files).foldl processFile initialBuildState

/-- The ids pushed into the `children` array of object `i`, in push order
(= allocation order: children always have larger ids than their parent). -/
def childIds (store : List NodeRec) (i : Nat) : List Nat :=
  (List.range store.length).filter (fun j =>
    i < j && (match store.get? j with
      | some r => r.parent == some i
      | none => false))

/-- Read the object graph at id `i` back into a `FileNode`.  The fuel only
makes the recursion structural: children ids strictly exceed their parent's,
so `store.length` fuel always suffices from the root. -/
def reifyF (store : List NodeRec) : Nat → Nat → FileNode
  | 0, _ => .mk "" "" false none none .absent
  | fuel + 1, i =>
    match store.get? i with
    | none => .mk "" "" false none none .absent
    | some r =>
      let kids : Kids :=
        if r.hasChildren then
          .present (NodeList.ofList ((childIds store i).map (reifyF store fuel)))
        else .absent
      .mk r.name r.path r.isDirectory r.size r.lastModified kids

/-- `buildFileTree` from `App.tsx`: sort the input by relative path, insert
every entry, read the tree back from the root object and sort all children. -/
def buildFileTree (files : List InputFile) : FileNode :=
  let st := buildStore files
  sortChildren (reifyF st.store st.store.length 0)

/-! ### Decidable equality for the mutual tree types -/
mutual
def nodeBeq : FileNode → FileNode → Bool
  | .mk n1 p1 d1 s1 m1 k1, .mk n2 p2 d2 s2 m2 k2 =>
    n1 == n2 && p1 == p2 && d1 == d2 && s1 == s2 && m1 == m2 && kidsBeq k1 k2

def kidsBeq : Kids → Kids → Bool
  | .absent, .absent => true
  | .present l1, .present l2 => nlBeq l1 l2
  | _, _ => false

def nlBeq : NodeList → NodeList → Bool
  | .nil, .nil => true
  | .cons h1 t1, .cons h2 t2 => nodeBeq h1 h2 && nlBeq t1 t2
  | _, _ => false
end

mutual
def nodeBeq_iff : ∀ a b : FileNode, nodeBeq a b = true ↔ a = b
  | .mk n1 p1 d1 s1 m1 k1, .mk n2 p2 d2 s2 m2 k2 => by
    simp [nodeBeq, kidsBeq_iff k1 k2, and_assoc]

def kidsBeq_iff : ∀ a b : Kids, kidsBeq a b = true ↔ a = b
  | .absent, .absent => by simp [kidsBeq]
  | .absent, .present _ => by simp [kidsBeq]
  | .present _, .absent => by simp [kidsBeq]
  | .present l1, .present l2 => by simp [kidsBeq, nlBeq_iff l1 l2]

def nlBeq_iff : ∀ a b : NodeList, nlBeq a b = true ↔ a = b
  | .nil, .nil => by simp [nlBeq]
  | .nil, .cons _ _ => by simp [nlBeq]
  | .cons _ _, .nil => by simp [nlBeq]
  | .cons h1 t1, .cons h2 t2 => by
    simp [nlBeq, nodeBeq_iff h1 h2, nlBeq_iff t1 t2]
end

instance : DecidableEq FileNode := fun a b => decidable_of_iff _ (nodeBeq_iff a b)

instance : DecidableEq NodeList := fun a b => decidable_of_iff _ (nlBeq_iff a b)

instance : DecidableEq Kids := fun a b => decidable_of_iff _ (kidsBeq_iff a b)

/-- The comparison applied between two `aValue`/`bValue` results (ascending
direction); mixed shapes cannot arise for a fixed column. -/
def valCmp : SortVal → SortVal → Int
  | .str x, .str y => scmp x y
  | .num x, .num y => (x : Int) - y
  | _, _ => 0

/-- Witness for C6 at a concrete two-file listing with distinct names. -/
def witNode1 : FileNode := .mk "b.txt" "b.txt" false (some 3) (some 2) .absent

/-- Second concrete witness node. -/
def witNode2 : FileNode := .mk "a.txt" "d/a.txt" false (some 5) (some 1) .absent

/-- A concrete prior state for the C5 witness. -/
def witAppState : AppState :=
  { rootDirectory := some witNode1, summaries := [], error := none, isLoading := true }

/-- A concrete directory node for the C7 counterexample and witness. -/
def witDirNode : FileNode := .mk "d" "p" true none none (.present .nil)

/-- The children of a node as a plain list (empty when the field is absent). -/
def kidsList : Kids → List FileNode
  | .absent => []
  | .present l => l.toList

/-- Concrete valid input for the C3 witness. -/
def witInput1 : InputFile := ⟨"d/a.txt", 5, 1⟩

/-- Second concrete input. -/
def witInput2 : InputFile := ⟨"b.txt", 3, 2⟩

/-- Duplicate-path input for the C3 counterexample. -/
def dupInput1 : InputFile := ⟨"x", 1, 0⟩

/-- Second entry with the same relative path but different metadata. -/
def dupInput2 : InputFile := ⟨"x", 2, 0⟩

/-- The invariant of C2 in its unconditional form: every child's path is the
parent's path, a slash, and the child's name. -/
def ParentPathInv (t : FileNode) : Prop :=
  ∀ q ∈ flattenFiles t, ∀ l, q.children = Kids.present l →
    ∀ c ∈ l.toList, c.path = q.path ++ "/" ++ c.name

/-- The build-state well-formedness that holds for every input (not just
valid ones): the `"root"` key stays bound, the map points at objects carrying
the bound path, and every pushed object ends up in the `children` array of an
earlier object whose path is the accumulated parent path. -/
structure StoreWF (st : BuildState) : Prop where
  root_mem : (mapLookup "root" st.nodeMap).isSome = true
  map_sound : ∀ k id, mapLookup k st.nodeMap = some id →
    ∃ r, st.store.get? id = some r ∧ r.path = k
  parent_spec : ∀ i r pid, st.store.get? i = some r → r.parent = some pid →
    ∃ pr, st.store.get? pid = some pr ∧ pr.hasChildren = true ∧ pid < i ∧
      r.path = (if pr.path = "root" then r.name else pr.path ++ "/" ++ r.name)

/-- The child-path relation C2 actually satisfied by `buildFileTree` trees:
children of the synthetic root (path `"root"`) get their bare name as path;
all deeper children extend their parent's path with `"/" + name`. -/
def BuildParentInv (t : FileNode) : Prop :=
  ∀ q ∈ flattenFiles t, ∀ l, q.children = Kids.present l → ∀ c ∈ l.toList,
    c.path = (if q.path = "root" then c.name else q.path ++ "/" ++ c.name)

/-- The paths of a node's direct children. -/
def childPaths (t : FileNode) : List String :=
  (kidsList t.children).map FileNode.path

/-- The names of a node's direct children. -/
def childNames (t : FileNode) : List String :=
  (kidsList t.children).map FileNode.name

/-- A one-file input for the C2 counterexample. -/
def singleInput : InputFile := ⟨"a.txt", 1, 1⟩

/-- Entry list of the concrete native-picker directory for the C2 witness. -/
def witFsEntries : FsList := .cons (.file "z.txt" 3 4) .nil

/-- The child node `traverseDirectory` produces for that entry. -/
def witTravChild : FileNode := .mk "z.txt" "top/z.txt" false (some 3) (some 4) .absent

/-- Slash-freedom of a path segment. -/
def slashFree (s : String) : Prop := '/' ∉ s.data

/-- The path segments of an input entry, as `buildFileTree` computes them. -/
def segsOf (f : InputFile) : List String := splitStr '/' f.relativePath

/-- Boolean list-prefix test (segment-wise) used to state input validity. -/
def isPre : List String → List String → Bool
  | [], _ => true
  | _ :: _, [] => false
  | a :: as, b :: bs => a == b && isPre as bs

/-- Validity of a flat input list for the fallback builder: no entry's first
segment is the reserved key `"root"`, and no entry's segment list is a
(segment-wise) prefix of another's — in particular all relative paths are
distinct. -/
def ValidInput (files : List InputFile) : Prop :=
  (∀ f ∈ files, (segsOf f).head? ≠ some "root") ∧
  files.Pairwise (fun f g => isPre (segsOf f) (segsOf g) = false ∧
    isPre (segsOf g) (segsOf f) = false)

/-- The observable classification of a store object. -/
def zipOf (r : NodeRec) : String × Bool × Bool := (r.path, r.isDirectory, r.hasChildren)

/-- The builder-state invariant along a valid run: `D` lists the accumulated
directory paths and `F` the accumulated file paths, all distinct; the map
binds exactly `"root"`, `D` and `F`; and every object other than the root was
pushed into some earlier object's `children` array. -/
structure StoreInvS (st : BuildState) (D F : List String) : Prop where
  wf : StoreWF st
  root0 : st.store.get? 0 = some rootRec
  nd : ("root" :: (D ++ F)).Nodup
  map_iff : ∀ p, (mapLookup p st.nodeMap).isSome = true ↔ (p = "root" ∨ p ∈ D ∨ p ∈ F)
  zip_perm : (st.store.map zipOf).Perm
      (("root", true, true) :: (D.map (fun p => (p, true, true)) ++
        F.map (fun p => (p, false, false))))
  attached : ∀ i r, st.store.get? i = some r → i ≠ 0 → r.parent.isSome = true

/-- The accumulated-path string of the builder walk after consuming the
segments `l`: the reserved key `"root"` before the first segment, the
`"/"`-join afterwards. -/
def curOf (l : List String) : String := if l = [] then "root" else joinSegs l

/-- The parent pointer of the object with id `j`, read from the store. -/
def parentD (store : List NodeRec) (j : Nat) : Option Nat :=
  match store.get? j with
  | some r => r.parent
  | none => none

/-- Fuelled reachability along parent pointers: `i` is an ancestor (or self)
of `j`, following at most `fuel` parent steps from `j`. -/
def reachb (store : List NodeRec) : Nat → Nat → Nat → Bool
  | 0, i, j => i == j
  | fuel + 1, i, j => i == j ||
    (match parentD store j with
     | none => false
     | some p => reachb store fuel i p)

/-- Ancestor-or-self reachability: parent pointers strictly decrease, so
`j` steps of fuel always suffice from `j`. -/
def reaches (store : List NodeRec) (i j : Nat) : Bool := reachb store j i j

/-- The ids of the subtree rooted at object `i`, in id order. -/
def subIds (store : List NodeRec) (i : Nat) : List Nat :=
  (List.range store.length).filter (fun j => reaches store i j)

/-- The observable classification of a store object id, as read by `reifyF`. -/
def stampId (store : List NodeRec) (j : Nat) : String × Bool :=
  match store.get? j with
  | some r => (r.path, r.isDirectory)
  | none => ("", false)

/-- A concrete valid input for the C1 witness: three files under two
directories, two of them sharing the `docs` prefix. -/
def witC1Input : List InputFile :=
  [⟨"docs/readme.txt", 10, 1⟩, ⟨"docs/guide.txt", 30, 3⟩, ⟨"src/main.ts", 20, 2⟩]

/-! ### Generic facts about the stable comparator sort `ssort` -/
theorem insertCmp_perm (cmp : α → α → Int) (a : α) :
    ∀ l : List α, (insertCmp cmp a l).Perm (a :: l)
  | [] => List.Perm.refl _
  | b :: bs => by
    by_cases h : cmp a b < 0
    · simp [insertCmp, h]
    · simpa [insertCmp, h] using ((insertCmp_perm cmp a bs).cons b).trans (List.Perm.swap a b bs)

theorem ssort_foldl_perm (cmp : α → α → Int) :
    ∀ (l acc : List α), (l.foldl (fun acc a => insertCmp cmp a acc) acc).Perm (acc ++ l)
  | [], acc => by simp
  | a :: as, acc => by
    refine (ssort_foldl_perm cmp as (insertCmp cmp a acc)).trans ?_
    refine (((insertCmp_perm cmp a acc).append_right as).trans ?_)
    simpa using (@List.perm_middle _ a acc as).symm

theorem ssort_perm (cmp : α → α → Int) (l : List α) : (ssort cmp l).Perm l := by
  simpa [ssort] using ssort_foldl_perm cmp l []

theorem mem_ssort (cmp : α → α → Int) {l : List α} {x : α} :
    x ∈ ssort cmp l ↔ x ∈ l := (ssort_perm cmp l).mem_iff

theorem mem_insertCmp (cmp : α → α → Int) {l : List α} {a x : α} :
    x ∈ insertCmp cmp a l ↔ x = a ∨ x ∈ l := by
  simpa using (insertCmp_perm cmp a l).mem_iff

theorem insertCmp_sorted {cmp : α → α → Int}
    (htrans : ∀ a b c, cmp a b ≤ 0 → cmp b c ≤ 0 → cmp a c ≤ 0)
    (hsign : ∀ a b, cmp a b < 0 ↔ 0 < cmp b a) (a : α) :
    ∀ l : List α, l.Pairwise (fun x y => cmp x y ≤ 0) →
      (insertCmp cmp a l).Pairwise (fun x y => cmp x y ≤ 0)
  | [], _ => by simp [insertCmp]
  | b :: bs, hl => by
    rcases List.pairwise_cons.mp hl with ⟨hb, hbs⟩
    by_cases h : cmp a b < 0
    · simp only [insertCmp, if_pos h]
      refine List.pairwise_cons.mpr ⟨?_, hl⟩
      intro x hx
      rcases List.mem_cons.mp hx with rfl | hx
      · exact le_of_lt h
      · exact htrans a b x (le_of_lt h) (hb x hx)
    · simp only [insertCmp, if_neg h]
      refine List.pairwise_cons.mpr ⟨?_, insertCmp_sorted htrans hsign a bs hbs⟩
      intro x hx
      rcases (mem_insertCmp cmp).mp hx with rfl | hx
      · have : ¬ 0 < cmp b x := fun hpos => h ((hsign x b).mpr hpos)
        omega
      · exact hb x hx

theorem ssort_foldl_sorted {cmp : α → α → Int}
    (htrans : ∀ a b c, cmp a b ≤ 0 → cmp b c ≤ 0 → cmp a c ≤ 0)
    (hsign : ∀ a b, cmp a b < 0 ↔ 0 < cmp b a) :
    ∀ (l acc : List α), acc.Pairwise (fun x y => cmp x y ≤ 0) →
      (l.foldl (fun acc a => insertCmp cmp a acc) acc).Pairwise (fun x y => cmp x y ≤ 0)
  | [], _, hacc => hacc
  | a :: as, acc, hacc =>
    ssort_foldl_sorted htrans hsign as _ (insertCmp_sorted htrans hsign a acc hacc)

theorem ssort_sorted {cmp : α → α → Int}
    (htrans : ∀ a b c, cmp a b ≤ 0 → cmp b c ≤ 0 → cmp a c ≤ 0)
    (hsign : ∀ a b, cmp a b < 0 ↔ 0 < cmp b a) (l : List α) :
    (ssort cmp l).Pairwise (fun x y => cmp x y ≤ 0) :=
  ssort_foldl_sorted htrans hsign l [] (List.Pairwise.nil)

theorem ssort_eq_of_perm {cmp : α → α → Int}
    (htrans : ∀ a b c, cmp a b ≤ 0 → cmp b c ≤ 0 → cmp a c ≤ 0)
    (hsign : ∀ a b, cmp a b < 0 ↔ 0 < cmp b a) {l₁ l₂ : List α}
    (hp : l₁.Perm l₂) (hne : l₁.Pairwise (fun a b => cmp a b ≠ 0)) :
    ssort cmp l₁ = ssort cmp l₂ := by
  have hsymm : Symmetric (fun a b => cmp a b ≠ 0) := by
    intro a b hab h0
    have h1 := hsign a b
    have h2 := hsign b a
    omega
  have hperm : (ssort cmp l₁).Perm (ssort cmp l₂) :=
    (ssort_perm cmp l₁).trans (hp.trans (ssort_perm cmp l₂).symm)
  have hne₁ : (ssort cmp l₁).Pairwise (fun a b => cmp a b ≠ 0) :=
    ((ssort_perm cmp l₁).pairwise_iff (fun h' => hsymm h')).mpr hne
  have hne₂ : (ssort cmp l₂).Pairwise (fun a b => cmp a b ≠ 0) :=
    ((ssort_perm cmp l₂).pairwise_iff (fun h' => hsymm h')).mpr
      ((hp.pairwise_iff (fun h' => hsymm h')).mp hne)
  have hlt₁ : (ssort cmp l₁).Pairwise (fun a b => cmp a b < 0) :=
    ((ssort_sorted htrans hsign l₁).and hne₁).imp (fun h => by omega)
  have hlt₂ : (ssort cmp l₂).Pairwise (fun a b => cmp a b < 0) :=
    ((ssort_sorted htrans hsign l₂).and hne₂).imp (fun h => by omega)
  haveI : IsAntisymm α (fun a b => cmp a b < 0) := by
    constructor
    intro a b h h'
    have := (hsign a b).mp h
    omega
  exact List.eq_of_perm_of_sorted hperm hlt₁ hlt₂

/-! ### Properties of the comparators used by the application -/
theorem lexCmp_flip : ∀ a b : List Char, lexCmp b a = -(lexCmp a b)
  | [], [] => rfl
  | [], _ :: _ => rfl
  | _ :: _, [] => rfl
  | a :: as, b :: bs => by
    by_cases h1 : a.toNat < b.toNat
    · have h2 : ¬ b.toNat < a.toNat := by omega
      simp [lexCmp, h1, h2]
    · by_cases h2 : b.toNat < a.toNat
      · simp [lexCmp, h1, h2]
      · simp [lexCmp, h1, h2, lexCmp_flip as bs]

theorem lexCmp_sign (a b : List Char) : lexCmp a b < 0 ↔ 0 < lexCmp b a := by
  rw [lexCmp_flip a b]
  omega

theorem lexCmp_eq_zero : ∀ a b : List Char, lexCmp a b = 0 → a = b
  | [], [] => fun _ => rfl
  | [], _ :: _ => by intro h; simp [lexCmp] at h
  | _ :: _, [] => by intro h; simp [lexCmp] at h
  | a :: as, b :: bs => by
    intro h
    simp only [lexCmp] at h
    by_cases h1 : a.toNat < b.toNat
    · rw [if_pos h1] at h
      omega
    · by_cases h2 : b.toNat < a.toNat
      · rw [if_neg h1, if_pos h2] at h
        omega
      · rw [if_neg h1, if_neg h2] at h
        have hab : a = b := Char.eq_of_val_eq (UInt32.toNat.inj (show a.toNat = b.toNat by omega))
        rw [hab, lexCmp_eq_zero as bs h]

theorem lexCmp_le_trans : ∀ a b c : List Char, lexCmp a b ≤ 0 → lexCmp b c ≤ 0 → lexCmp a c ≤ 0
  | [], _, cs => by
    intro _ _
    cases cs <;> simp [lexCmp]
  | _ :: _, [], _ => by intro h _; simp [lexCmp] at h
  | _ :: _, _ :: _, [] => by intro _ h; simp [lexCmp] at h
  | a :: as, b :: bs, c :: cs => by
    intro h1 h2
    simp only [lexCmp] at h1 h2 ⊢
    by_cases hab2 : b.toNat < a.toNat
    · rw [if_neg (by omega), if_pos hab2] at h1
      omega
    · by_cases hbc2 : c.toNat < b.toNat
      · rw [if_neg (by omega), if_pos hbc2] at h2
        omega
      · by_cases hab1 : a.toNat < b.toNat
        · rw [if_pos (show a.toNat < c.toNat by omega)]
          omega
        · by_cases hbc1 : b.toNat < c.toNat
          · rw [if_pos (show a.toNat < c.toNat by omega)]
            omega
          · rw [if_neg hab1, if_neg hab2] at h1
            rw [if_neg hbc1, if_neg hbc2] at h2
            rw [if_neg (show ¬ a.toNat < c.toNat by omega),
                if_neg (show ¬ c.toNat < a.toNat by omega)]
            exact lexCmp_le_trans as bs cs h1 h2

theorem scmp_sign (a b : String) : scmp a b < 0 ↔ 0 < scmp b a := lexCmp_sign a.data b.data

theorem scmp_le_trans (a b c : String) : scmp a b ≤ 0 → scmp b c ≤ 0 → scmp a c ≤ 0 :=
  lexCmp_le_trans a.data b.data c.data

theorem scmp_eq_zero {a b : String} (h : scmp a b = 0) : a = b := by
  cases a; cases b
  exact congrArg String.mk (lexCmp_eq_zero _ _ h)

theorem inputCmp_sign (a b : InputFile) : inputCmp a b < 0 ↔ 0 < inputCmp b a :=
  scmp_sign _ _

theorem inputCmp_le_trans (a b c : InputFile) :
    inputCmp a b ≤ 0 → inputCmp b c ≤ 0 → inputCmp a c ≤ 0 := scmp_le_trans _ _ _

theorem childSortCmp_sign (a b : FileNode) : childSortCmp a b < 0 ↔ 0 < childSortCmp b a := by
  unfold childSortCmp
  cases hda : a.isDirectory <;> cases hdb : b.isDirectory <;>
    simp [hda, hdb, scmp_sign a.name b.name]

theorem childSortCmp_le_trans (a b c : FileNode) :
    childSortCmp a b ≤ 0 → childSortCmp b c ≤ 0 → childSortCmp a c ≤ 0 := by
  unfold childSortCmp
  cases hda : a.isDirectory <;> cases hdb : b.isDirectory <;> cases hdc : c.isDirectory <;>
    simp [hda, hdb, hdc] <;>
    first
    | exact fun h1 h2 => scmp_le_trans _ _ _ h1 h2
    | (intro h1 h2; omega)
    | (intro h1; omega)

theorem scmp_flip (a b : String) : scmp b a = -(scmp a b) := lexCmp_flip a.data b.data

theorem fileSortCmp_asc (summaries : List FileSummary) (col : SortColumn) (a b : FileNode) :
    fileSortCmp summaries (some col) .asc a b =
      valCmp (sortVal summaries col a) (sortVal summaries col b) := by
  rcases h1 : sortVal summaries col a <;> rcases h2 : sortVal summaries col b <;>
    simp [fileSortCmp, valCmp, h1, h2]

theorem fileSortCmp_desc (summaries : List FileSummary) (col : SortColumn) (a b : FileNode) :
    fileSortCmp summaries (some col) .desc a b =
      -(valCmp (sortVal summaries col a) (sortVal summaries col b)) := by
  rcases h1 : sortVal summaries col a <;> rcases h2 : sortVal summaries col b <;>
    simp [fileSortCmp, valCmp, h1, h2]

theorem valCmp_sign (u v : SortVal) : valCmp u v < 0 ↔ 0 < valCmp v u := by
  cases u with
  | str x =>
    cases v with
    | str y => exact scmp_sign x y
    | num y => simp [valCmp]
  | num x =>
    cases v with
    | str y => simp [valCmp]
    | num y => simp only [valCmp]; omega

theorem valCmp_self_zero (u : SortVal) : valCmp u u = 0 := by
  cases u with
  | str x =>
    have h1 := scmp_sign x x
    have h2 := scmp_flip x x
    simp only [valCmp]
    omega
  | num x => simp only [valCmp]; omega

theorem sortVal_all_shapes (summaries : List FileSummary) (col : SortColumn) :
    (∀ f, ∃ x, sortVal summaries col f = .str x) ∨
    (∀ f, ∃ x, sortVal summaries col f = .num x) := by
  cases col
  · exact Or.inl fun f => ⟨_, rfl⟩
  · exact Or.inl fun f => ⟨_, rfl⟩
  · exact Or.inr fun f => ⟨_, rfl⟩
  · exact Or.inr fun f => ⟨_, rfl⟩
  · exact Or.inl fun f => ⟨_, rfl⟩
  · exact Or.inl fun f => ⟨_, rfl⟩

theorem fileSortCmp_sign (summaries : List FileSummary) (colOpt : Option SortColumn)
    (dir : SortDirection) (a b : FileNode) :
    fileSortCmp summaries colOpt dir a b < 0 ↔ 0 < fileSortCmp summaries colOpt dir b a := by
  cases colOpt with
  | none => simp [fileSortCmp]
  | some col =>
    cases dir with
    | asc =>
      rw [fileSortCmp_asc, fileSortCmp_asc]
      exact valCmp_sign _ _
    | desc =>
      rw [fileSortCmp_desc, fileSortCmp_desc]
      have h1 := valCmp_sign (sortVal summaries col a) (sortVal summaries col b)
      have h2 := valCmp_sign (sortVal summaries col b) (sortVal summaries col a)
      omega

theorem fileSortCmp_le_trans (summaries : List FileSummary) (colOpt : Option SortColumn)
    (dir : SortDirection) (a b c : FileNode) :
    fileSortCmp summaries colOpt dir a b ≤ 0 → fileSortCmp summaries colOpt dir b c ≤ 0 →
    fileSortCmp summaries colOpt dir a c ≤ 0 := by
  cases colOpt with
  | none => simp [fileSortCmp]
  | some col =>
    rcases sortVal_all_shapes summaries col with hall | hall <;>
      obtain ⟨x, hx⟩ := hall a <;> obtain ⟨y, hy⟩ := hall b <;> obtain ⟨z, hz⟩ := hall c <;>
      cases dir <;>
      simp only [fileSortCmp_asc, fileSortCmp_desc, hx, hy, hz, valCmp] <;>
      intro h1 h2
    · exact scmp_le_trans x y z h1 h2
    · have e1 : scmp y x ≤ 0 := by rw [scmp_flip]; omega
      have e2 : scmp z y ≤ 0 := by rw [scmp_flip]; omega
      have e3 := scmp_le_trans z y x e2 e1
      rw [scmp_flip] at e3
      omega
    · omega
    · omega

theorem fileSortCmp_eq_zero {summaries : List FileSummary} {col : SortColumn}
    {dir : SortDirection} {a b : FileNode}
    (h : fileSortCmp summaries (some col) dir a b = 0) :
    sortVal summaries col a = sortVal summaries col b := by
  rcases sortVal_all_shapes summaries col with hall | hall <;>
    obtain ⟨x, hx⟩ := hall a <;> obtain ⟨y, hy⟩ := hall b <;>
    cases dir <;>
    rw [hx, hy] <;>
    simp only [fileSortCmp_asc, fileSortCmp_desc, hx, hy, valCmp] at h
  · rw [scmp_eq_zero h]
  · rw [scmp_eq_zero (show scmp x y = 0 by omega)]
  · congr 1
    omega
  · congr 1
    omega

/-! ### Claim C6: ascending then descending sort are exact reverses -/
/-- Claim C6: for every file list whose sort keys under the active column are
pairwise distinct, sorting the listing in descending direction yields exactly
the reverse of the ascending result. -/
theorem sortedFiles_asc_desc_reverse (summaries : List FileSummary) (col : SortColumn)
    (files : List FileNode)
    (hkeys : files.Pairwise (fun a b => sortVal summaries col a ≠ sortVal summaries col b)) :
    sortedFiles summaries (some col) .desc files =
      (sortedFiles summaries (some col) .asc files).reverse := by
  have htrA := fileSortCmp_le_trans summaries (some col) .asc
  have hsgA := fileSortCmp_sign summaries (some col) .asc
  have htrD := fileSortCmp_le_trans summaries (some col) .desc
  have hsgD := fileSortCmp_sign summaries (some col) .desc
  set cA := fileSortCmp summaries (some col) .asc with hcA
  set cD := fileSortCmp summaries (some col) .desc with hcD
  have hsymm : Symmetric (fun a b : FileNode =>
      sortVal summaries col a ≠ sortVal summaries col b) := fun _ _ h h' => h h'.symm
  have hneA : (ssort cA files).Pairwise
      (fun a b => sortVal summaries col a ≠ sortVal summaries col b) :=
    ((ssort_perm cA files).pairwise_iff (fun h' => hsymm h')).mpr hkeys
  have hneD : (ssort cD files).Pairwise
      (fun a b => sortVal summaries col a ≠ sortVal summaries col b) :=
    ((ssort_perm cD files).pairwise_iff (fun h' => hsymm h')).mpr hkeys
  have hltA : (ssort cA files).Pairwise (fun a b => cA a b < 0) := by
    refine ((ssort_sorted htrA hsgA files).and hneA).imp ?_
    rintro a b ⟨hle, hne⟩
    rcases lt_or_eq_of_le hle with h | h
    · exact h
    · exact absurd (fileSortCmp_eq_zero h) hne
  have hltD : (ssort cD files).Pairwise (fun a b => cA b a < 0) := by
    refine ((ssort_sorted htrD hsgD files).and hneD).imp ?_
    rintro a b ⟨hle, hne⟩
    have hlt : cD a b < 0 := by
      rcases lt_or_eq_of_le hle with h | h
      · exact h
      · exact absurd (fileSortCmp_eq_zero h) hne
    have h1 : -(valCmp (sortVal summaries col a) (sortVal summaries col b)) < 0 := by
      rw [hcD] at hlt
      rwa [fileSortCmp_desc] at hlt
    have h2 := valCmp_sign (sortVal summaries col b) (sortVal summaries col a)
    rw [hcA, fileSortCmp_asc]
    omega
  have hrevA : (ssort cA files).reverse.Pairwise (fun a b => cA b a < 0) := by
    rw [List.pairwise_reverse]
    exact hltA
  have hperm : (ssort cD files).Perm (ssort cA files).reverse :=
    (ssort_perm cD files).trans ((ssort_perm cA files).symm.trans
      (ssort cA files).reverse_perm.symm)
  haveI : IsAntisymm FileNode (fun a b => cA b a < 0) := by
    constructor
    intro a b h h'
    have := (hsgA b a).mp h
    omega
  exact List.eq_of_perm_of_sorted hperm hltD hrevA

/-- Witness for C6: the hypothesis holds and the conclusion evaluates at a
concrete input. -/
theorem sortedFiles_asc_desc_reverse_witness :
    ([witNode1, witNode2].Pairwise
      (fun a b => sortVal [] .name a ≠ sortVal [] .name b)) ∧
    sortedFiles [] (some .name) .desc [witNode1, witNode2] =
      (sortedFiles [] (some .name) .asc [witNode1, witNode2]).reverse :=
  ⟨by decide, sortedFiles_asc_desc_reverse [] .name [witNode1, witNode2] (by decide)⟩

/-! ### Claim C8: size formatting -/
/-- Claim C8: `formatFileSize` maps an absent size and `0` to the placeholder,
`1023` to `"1023.00 B"`, `1024` to `"1.00 KB"`, `1536` to `"1.50 KB"` and
`1073741824` to `"1.00 GB"` (the repeated division by 1024 across `B/KB/MB/GB/TB`
with two rendered decimals is the definition of `formatFileSize` itself). -/
theorem formatFileSize_spec :
    formatFileSize none = "—" ∧ formatFileSize (some 0) = "—" ∧
    formatFileSize (some 1023) = "1023.00 B" ∧
    formatFileSize (some 1024) = "1.00 KB" ∧
    formatFileSize (some 1536) = "1.50 KB" ∧
    formatFileSize (some 1073741824) = "1.00 GB" := by
  decide

/-! ### Claim C9: sorting does not mutate the caller's array -/
theorem set_append_last : ∀ (l : List α) (x v : α), (l ++ [x]).set l.length v = l ++ [v]
  | [], _, _ => rfl
  | h :: t, x, v => by simp [set_append_last t x v]

/-- Claim C9: rendering the sorted listing (`[...files].sort(cmp)`) leaves the
caller's array exactly as it was: the heap cell `ref` holding `files` is
untouched, and the sort happens on a freshly allocated copy which ends up equal
to `sortedFiles` applied to the caller's (unchanged) array. -/
theorem sortedFilesRender_frame (summaries : List FileSummary) (colOpt : Option SortColumn)
    (dir : SortDirection) (heap : List (List FileNode)) (ref : Nat)
    (href : ref < heap.length) :
    ((sortedFilesRender summaries colOpt dir heap ref).1.get? ref = heap.get? ref) ∧
    ((sortedFilesRender summaries colOpt dir heap ref).2 ≠ ref) ∧
    ((sortedFilesRender summaries colOpt dir heap ref).1.get?
        (sortedFilesRender summaries colOpt dir heap ref).2 =
      some (sortedFiles summaries colOpt dir ((heap.get? ref).getD []))) := by
  unfold sortedFilesRender
  simp only
  rw [set_append_last]
  refine ⟨?_, ?_, ?_⟩
  · simp [List.get?_eq_getElem?, List.getElem?_append, href]
  · omega
  · simp [List.get?_eq_getElem?, sortedFiles]

/-- Witness for C9 at a one-array heap. -/
theorem sortedFilesRender_frame_witness :
    0 < ([[witNode1, witNode2]] : List (List FileNode)).length ∧
    ((sortedFilesRender [] (some .name) .asc [[witNode1, witNode2]] 0).1.get? 0 =
      some [witNode1, witNode2]) :=
  ⟨by decide,
   by
    have h := sortedFilesRender_frame [] (some .name) .asc [[witNode1, witNode2]] 0 (by decide)
    exact h.1.trans (by decide)⟩

/-! ### Claim C4: which nodes are visible in the listing -/
/-- Claim C4 (amended): in the `SemanticSearchResults` listing a tree node is
visible iff it has an external summary by exact path and its lowercased name
contains the lowercased search text; in the `App.tsx` listing the summary
condition is absent and the name condition alone decides visibility.  In both,
the summary condition does not mention the search text at all. -/
theorem filtered_listing_spec (root : FileNode) (summaries : List FileSummary)
    (searchQuery : String) (f : FileNode) :
    (f ∈ filteredFilesSemantic (some root) summaries searchQuery ↔
      f ∈ flattenFiles root ∧ (∃ s ∈ summaries, s.filePath = f.path) ∧
        strIncludes (lowerStr f.name) (lowerStr searchQuery) = true) ∧
    (f ∈ filteredFilesApp (some root) searchQuery ↔
      f ∈ flattenFiles root ∧ strIncludes (lowerStr f.name) (lowerStr searchQuery) = true) := by
  constructor
  · simp [filteredFilesSemantic, List.mem_filter, List.any_eq_true, and_assoc]
  · simp [filteredFilesApp, List.mem_filter]

/-- Counterexample for C4 as frozen: in the `App.tsx` listing (cited as a
source of the claim) a node with no matching summary is still visible, so
"visible iff some summary's `filePath` matches and the name matches" is false
there: with an empty summaries collection the node below appears. -/
theorem filtered_listing_claim_false :
    (witNode1 ∈ filteredFilesApp (some witNode1) "") ∧
    ¬ (∃ s ∈ ([] : List FileSummary), s.filePath = witNode1.path) := by
  constructor
  · decide
  · simp

/-! ### Claim C5: failure behaviour of load and regenerate -/
/-- Claim C5: if regenerate fails (either request errors out), the previous
tree and summaries survive unchanged, an error message is set and the loading
flag clears; if load fails (request error or empty tree data), the tree is
cleared and the summaries emptied in addition to the error message, and the
loading flag clears. -/
theorem load_regenerate_failure_spec (st : AppState) (folderPath : String)
    (treeResp : Except String (List ApiFileNode))
    (summaryResp : Except String SummarizeResponse)
    (hfp : trimStr folderPath ≠ "") :
    ((st.rootDirectory.isSome = true →
      ((∃ m, treeResp = .error m) ∨ (∃ m, summaryResp = .error m)) →
      (handleRegenerate st folderPath treeResp summaryResp).rootDirectory = st.rootDirectory ∧
      (handleRegenerate st folderPath treeResp summaryResp).summaries = st.summaries ∧
      (∃ m, (handleRegenerate st folderPath treeResp summaryResp).error = some m) ∧
      (handleRegenerate st folderPath treeResp summaryResp).isLoading = false)) ∧
    (((∃ m, treeResp = .error m) ∨ (∃ td, treeResp = .ok td ∧ td.length = 0) ∨
        (∃ m, summaryResp = .error m)) →
      (handleLoadFolder st folderPath treeResp summaryResp).rootDirectory = none ∧
      (handleLoadFolder st folderPath treeResp summaryResp).summaries = [] ∧
      (∃ m, (handleLoadFolder st folderPath treeResp summaryResp).error = some m) ∧
      (handleLoadFolder st folderPath treeResp summaryResp).isLoading = false) := by
  have hnone : st.rootDirectory.isSome = true → st.rootDirectory.isNone = false := by
    cases st.rootDirectory <;> simp
  constructor
  · intro hsome hfail
    have hn := hnone hsome
    rcases hfail with ⟨m, rfl⟩ | ⟨m, rfl⟩
    · simp [handleRegenerate, hfp, hn]
    · cases treeResp with
      | error m' => simp [handleRegenerate, hfp, hn]
      | ok td => simp [handleRegenerate, hfp, hn]
  · intro hfail
    rcases hfail with ⟨m, rfl⟩ | ⟨td, rfl, hlen⟩ | ⟨m, rfl⟩
    · simp [handleLoadFolder, hfp]
    · simp [handleLoadFolder, hfp, hlen]
    · cases treeResp with
      | error m' => simp [handleLoadFolder, hfp]
      | ok td =>
        by_cases hlen : td.length = 0
        · simp [handleLoadFolder, hfp, hlen]
        · simp [handleLoadFolder, hfp, hlen]

/-- Witness for C5: a failing regenerate (HTTP 500 on the tree request) and a
failing load at a concrete prior state. -/
theorem load_regenerate_failure_witness :
    trimStr "/docs" ≠ "" ∧
    (handleRegenerate witAppState "/docs" (.error "Tree API error: 500") (.ok ⟨[], 0⟩)).rootDirectory
      = some witNode1 ∧
    (handleRegenerate witAppState "/docs" (.error "Tree API error: 500") (.ok ⟨[], 0⟩)).isLoading
      = false ∧
    (handleLoadFolder witAppState "/docs" (.error "Tree API error: 500") (.ok ⟨[], 0⟩)).rootDirectory
      = none := by
  have h := load_regenerate_failure_spec witAppState "/docs"
    (.error "Tree API error: 500") (.ok ⟨[], 0⟩) (by decide)
  have hreg := h.1 (by decide) (Or.inl ⟨_, rfl⟩)
  have hload := h.2 (Or.inl ⟨_, rfl⟩)
  exact ⟨by decide, hreg.1.trans (by decide), hreg.2.2.2, hload.1⟩

/-! ### Claim C7: expand all / collapse all -/
theorem mem_setAdd {s : List String} {p q : String} :
    q ∈ setAdd s p ↔ q ∈ s ∨ q = p := by
  unfold setAdd
  by_cases h : p ∈ s
  · rw [if_pos (by simpa using h)]
    constructor
    · exact Or.inl
    · rintro (hq | rfl)
      · exact hq
      · exact h
  · rw [if_neg (by simpa using h)]
    simp

theorem mem_foldl_setAdd : ∀ (l acc : List String) (p : String),
    p ∈ l.foldl setAdd acc ↔ p ∈ acc ∨ p ∈ l
  | [], acc, p => by simp
  | q :: rest, acc, p => by
    rw [List.foldl_cons, mem_foldl_setAdd rest (setAdd acc q) p, mem_setAdd]
    simp only [List.mem_cons]
    tauto

theorem foldl_setAdd_of_nodup : ∀ (l acc : List String), l.Nodup →
    (∀ x ∈ l, x ∉ acc) → l.foldl setAdd acc = acc ++ l
  | [], acc, _, _ => by simp
  | q :: rest, acc, hnd, hdisj => by
    have hq : q ∉ acc := hdisj q (by simp)
    have hadd : setAdd acc q = acc ++ [q] := by
      unfold setAdd
      rw [if_neg (by simpa using hq)]
    rw [List.foldl_cons, hadd,
      foldl_setAdd_of_nodup rest (acc ++ [q]) (List.nodup_cons.mp hnd).2 ?_]
    · simp
    · intro x hx
      simp only [List.mem_append, List.mem_singleton]
      rintro (hxa | rfl)
      · exact hdisj x (by simp [hx]) hxa
      · exact (List.nodup_cons.mp hnd).1 hx

theorem newSetOf_of_nodup {l : List String} (h : l.Nodup) : newSetOf l = l := by
  simpa using foldl_setAdd_of_nodup l [] h (by simp)

theorem foldl_toggle_eq_nil : ∀ (l acc : List String), l.Nodup →
    (∀ x, x ∈ acc ↔ x ∈ l) → l.foldl toggleSet acc = []
  | [], acc, _, hiff => by
    have hnil : acc = [] :=
      List.eq_nil_iff_forall_not_mem.mpr (fun x hx => by simpa using (hiff x).mp hx)
    simp [hnil]
  | p :: rest, acc, hnd, hiff => by
    obtain ⟨hp, hrest⟩ := List.nodup_cons.mp hnd
    have hpacc : p ∈ acc := (hiff p).mpr (by simp)
    have hacc : toggleSet acc p = acc.filter (fun x => decide (x ≠ p)) := by
      unfold toggleSet setDelete
      rw [if_pos (by simpa using hpacc)]
    rw [List.foldl_cons, hacc]
    apply foldl_toggle_eq_nil rest _ hrest
    intro x
    simp only [List.mem_filter, decide_eq_true_eq]
    constructor
    · rintro ⟨hxa, hxp⟩
      rcases List.mem_cons.mp ((hiff x).mp hxa) with rfl | hxr
      · exact absurd rfl hxp
      · exact hxr
    · intro hxr
      exact ⟨(hiff x).mpr (by simp [hxr]), fun he => hp (he ▸ hxr)⟩

theorem expand_ext_foldl (prior : List String) : ∀ (l acc : List String), l.Nodup →
    (∀ x ∈ l, x ∉ prior → x ∉ acc) →
    l.foldl (fun acc p => if prior.contains p then acc else toggleSet acc p) acc =
      acc ++ l.filter (fun x => !(prior.contains x))
  | [], acc, _, _ => by simp
  | p :: rest, acc, hnd, hdisj => by
    obtain ⟨hp, hrest⟩ := List.nodup_cons.mp hnd
    rw [List.foldl_cons]
    by_cases hc : p ∈ prior
    · rw [if_pos (by simpa using hc)]
      rw [expand_ext_foldl prior rest acc hrest
        (fun x hx hxp => hdisj x (by simp [hx]) hxp)]
      rw [List.filter_cons]
      simp [hc]
    · have hpacc : p ∉ acc := hdisj p (by simp) hc
      rw [if_neg (by simpa using hc)]
      have hacc : toggleSet acc p = acc ++ [p] := by
        unfold toggleSet setAdd
        rw [if_neg (by simpa using hpacc), if_neg (by simpa using hpacc)]
      rw [hacc, expand_ext_foldl prior rest (acc ++ [p]) hrest ?_]
      · rw [List.filter_cons]
        simp [hc]
      · intro x hx hxp
        simp only [List.mem_append, List.mem_singleton, not_or]
        exact ⟨hdisj x (by simp [hx]) hxp, fun he => hp (he ▸ hx)⟩

mutual
theorem dirPaths_len_node : ∀ t : FileNode,
    (∀ n ∈ flattenFiles t, n.isDirectory = false → n.children = Kids.absent) →
    (dirPathsNode t).length = numDirs t
  | .mk n p d s m k => fun h => by
    cases d with
    | true =>
      have hk := dirPaths_len_kids k (fun x hx hd => h x (by simp [flattenFiles, hx]) hd)
      simp [dirPathsNode, numDirs, hk]
      omega
    | false =>
      have hself := h (.mk n p false s m k) (by simp [flattenFiles]) (by simp [FileNode.isDirectory])
      have hk : k = Kids.absent := by simpa [FileNode.children] using hself
      subst hk
      simp [dirPathsNode, numDirs, numDirsKids]

theorem dirPaths_len_kids : ∀ k : Kids,
    (∀ n ∈ flattenKids k, n.isDirectory = false → n.children = Kids.absent) →
    (dirPathsKids k).length = numDirsKids k
  | .absent => fun _ => rfl
  | .present l => fun h => dirPaths_len_list l (by simpa [flattenKids] using h)

theorem dirPaths_len_list : ∀ l : NodeList,
    (∀ n ∈ flattenNodeList l, n.isDirectory = false → n.children = Kids.absent) →
    (dirPathsList l).length = numDirsList l
  | .nil => fun _ => rfl
  | .cons hd tl => fun h => by
    have h1 := dirPaths_len_node hd (fun x hx => h x (by simp [flattenNodeList, hx]))
    have h2 := dirPaths_len_list tl (fun x hx => h x (by simp [flattenNodeList, hx]))
    simp [dirPathsList, numDirsList, h1, h2]
end

/-- Claim C7 (amended): collapse-all always empties the expanded set (in
internal-state mode by construction, in external-toggle mode because toggling
every member of the snapshot removes it); expand-all in internal-state mode
replaces the set by exactly the tree's directory paths — `N` entries, the
total number of directory nodes, when those paths are distinct and files carry
no children — but in external-toggle mode it only adds the tree's directory
paths to whatever was already in the set, so stale entries survive. -/
theorem expand_collapse_spec (t : FileNode) (prior : List String) :
    (∀ p, p ∈ expandAllInternal [t] ↔ p ∈ getAllDirectoryPaths [t]) ∧
    ((getAllDirectoryPaths [t]).Nodup →
      (∀ n ∈ flattenFiles t, n.isDirectory = false → n.children = Kids.absent) →
      (expandAllInternal [t]).length = numDirs t) ∧
    collapseAllInternal = [] ∧
    (prior.Nodup → collapseAllExternal prior = []) ∧
    (prior.Nodup → (getAllDirectoryPaths [t]).Nodup →
      expandAllExternal prior [t] =
        prior ++ (getAllDirectoryPaths [t]).filter (fun p => !(prior.contains p))) := by
  refine ⟨?_, ?_, rfl, ?_, ?_⟩
  · intro p
    unfold expandAllInternal newSetOf
    rw [mem_foldl_setAdd]
    simp
  · intro hnd hfc
    unfold expandAllInternal
    rw [newSetOf_of_nodup hnd]
    have := dirPaths_len_node t hfc
    simpa [getAllDirectoryPaths] using this
  · intro hnd
    exact foldl_toggle_eq_nil prior prior hnd (fun _ => Iff.rfl)
  · intro hndp hndt
    unfold expandAllExternal
    exact expand_ext_foldl prior _ prior hndt (fun x _ hxp => by simpa using hxp)

/-- Counterexample for C7 as frozen: in external-toggle mode, expand-all on a
tree with one directory leaves a stale path in the expanded set, so the set
does not contain exactly the tree's `N = 1` directory paths. -/
theorem expand_collapse_claim_false :
    "ghost" ∈ expandAllExternal ["ghost"] [witDirNode] ∧
    "ghost" ∉ getAllDirectoryPaths [witDirNode] ∧
    (expandAllExternal ["ghost"] [witDirNode]).length = 2 ∧ numDirs witDirNode = 1 := by
  decide

/-- Witness for C7 at a concrete tree and prior set. -/
theorem expand_collapse_witness :
    (getAllDirectoryPaths [witDirNode]).Nodup ∧
    (["stale"] : List String).Nodup ∧
    (expandAllInternal [witDirNode]).length = numDirs witDirNode ∧
    collapseAllExternal ["stale"] = [] := by
  have h := expand_collapse_spec witDirNode ["stale"]
  exact ⟨by decide, by decide, h.2.1 (by decide) (by decide), h.2.2.2.1 (by decide)⟩

/-! ### Claim C10: what the flattened listing contains -/
mutual
theorem flatten_len_node : ∀ t : FileNode,
    (flattenFiles t).length = numDirs t + numFiles t
  | .mk n p d s m k => by
    have hk := flatten_len_kids k
    cases d <;> simp [flattenFiles, numDirs, numFiles, hk] <;> omega

theorem flatten_len_kids : ∀ k : Kids,
    (flattenKids k).length = numDirsKids k + numFilesKids k
  | .absent => rfl
  | .present l => flatten_len_list l

theorem flatten_len_list : ∀ l : NodeList,
    (flattenNodeList l).length = numDirsList l + numFilesList l
  | .nil => rfl
  | .cons hd tl => by
    have h1 := flatten_len_node hd
    have h2 := flatten_len_list tl
    simp [flattenNodeList, numDirsList, numFilesList, h1, h2]
    omega
end

mutual
theorem mem_flatten_node : ∀ (t q : FileNode), q ∈ flattenFiles t ↔ Subnode q t
  | .mk n p d s m k, q => by
    simp only [flattenFiles, List.mem_cons]
    constructor
    · rintro (rfl | hq)
      · exact Subnode.refl _
      · obtain ⟨l, hl, c, hc, hsub⟩ := (mem_flatten_kids k q).mp hq
        exact @Subnode.child _ _ _ l (by simp [FileNode.children, hl]) hc hsub
    · intro hsub
      cases hsub with
      | refl => exact Or.inl rfl
      | child hk hc hsubc =>
        rename_i c l
        right
        have hkl : k = Kids.present l := by simpa [FileNode.children] using hk
        exact (mem_flatten_kids k q).mpr ⟨l, hkl, c, hc, hsubc⟩

theorem mem_flatten_kids : ∀ (k : Kids) (q : FileNode),
    q ∈ flattenKids k ↔ ∃ l, k = Kids.present l ∧ ∃ c ∈ l.toList, Subnode q c
  | .absent, q => by simp [flattenKids]
  | .present l, q => by
    rw [show flattenKids (Kids.present l) = flattenNodeList l from rfl,
      mem_flatten_list l q]
    constructor
    · rintro ⟨c, hc, hsub⟩
      exact ⟨l, rfl, c, hc, hsub⟩
    · rintro ⟨l', hl', c, hc, hsub⟩
      cases hl'
      exact ⟨c, hc, hsub⟩

theorem mem_flatten_list : ∀ (l : NodeList) (q : FileNode),
    q ∈ flattenNodeList l ↔ ∃ c ∈ l.toList, Subnode q c
  | .nil, q => by simp [flattenNodeList, NodeList.toList]
  | .cons hd tl, q => by
    rw [show flattenNodeList (NodeList.cons hd tl) = flattenFiles hd ++ flattenNodeList tl
        from rfl]
    rw [List.mem_append, mem_flatten_node hd q, mem_flatten_list tl q]
    simp only [NodeList.toList, List.mem_cons]
    constructor
    · rintro (hsub | ⟨c, hc, hsub⟩)
      · exact ⟨hd, Or.inl rfl, hsub⟩
      · exact ⟨c, Or.inr hc, hsub⟩
    · rintro ⟨c, rfl | hc, hsub⟩
      · exact Or.inl hsub
      · exact Or.inr ⟨c, hc, hsub⟩
end

/-- Claim C10: `flattenFiles` returns the nodes of the tree in pre-order
starting with the node it is given, containing every directory node as well as
every file node, so the unfiltered flattened listing has length equal to the
total node count (directories + files), not the file count. -/
theorem flattenFiles_spec (t : FileNode) :
    (flattenFiles t).head? = some t ∧
    (flattenFiles t).length = numDirs t + numFiles t ∧
    (∀ q, q ∈ flattenFiles t ↔ Subnode q t) := by
  refine ⟨?_, flatten_len_node t, fun q => mem_flatten_node t q⟩
  cases t
  rfl

/-! ### Claim C3: child ordering and permutation invariance of the builder -/
theorem toList_ofList : ∀ L : List FileNode, (NodeList.ofList L).toList = L
  | [] => rfl
  | h :: t => by simp [NodeList.ofList, NodeList.toList, toList_ofList t]

theorem flattenNodeList_ofList : ∀ L : List FileNode,
    flattenNodeList (NodeList.ofList L) = L.flatMap flattenFiles
  | [] => rfl
  | h :: t => by
    simp [NodeList.ofList, flattenNodeList, flattenNodeList_ofList t]

theorem toList_sortEach : ∀ l : NodeList, (sortEach l).toList = l.toList.map sortChildren
  | .nil => rfl
  | .cons hd tl => by simp [sortEach, NodeList.toList, toList_sortEach tl]

mutual
theorem sortChildren_ordered_node : ∀ t : FileNode, ∀ q ∈ flattenFiles (sortChildren t),
    ∀ l, q.children = Kids.present l →
      l.toList.Pairwise (fun a b => childSortCmp a b ≤ 0)
  | .mk n p d s m k => by
    intro q hq l hl
    rw [show sortChildren (FileNode.mk n p d s m k) = FileNode.mk n p d s m (sortKids k)
        from rfl] at hq
    rcases List.mem_cons.mp (by simpa [flattenFiles] using hq) with rfl | hq'
    · have hkl : sortKids k = Kids.present l := by simpa [FileNode.children] using hl
      cases k with
      | absent => simp [sortKids] at hkl
      | present l₀ =>
        have : NodeList.ofList (ssort childSortCmp (NodeList.toList (sortEach l₀))) = l := by
          simpa [sortKids] using hkl
        rw [← this, toList_ofList]
        exact ssort_sorted childSortCmp_le_trans childSortCmp_sign _
    · cases k with
      | absent => simp [sortKids, flattenKids] at hq'
      | present l₀ =>
        rw [show sortKids (Kids.present l₀) =
            Kids.present (NodeList.ofList (ssort childSortCmp (NodeList.toList (sortEach l₀))))
            from rfl] at hq'
        rw [show flattenKids (Kids.present
              (NodeList.ofList (ssort childSortCmp (NodeList.toList (sortEach l₀))))) =
            flattenNodeList (NodeList.ofList (ssort childSortCmp
              (NodeList.toList (sortEach l₀)))) from rfl,
          flattenNodeList_ofList] at hq'
        obtain ⟨x, hx, hqx⟩ := List.mem_flatMap.mp hq'
        exact sortChildren_ordered_list l₀ x (mem_ssort childSortCmp |>.mp hx) q hqx l hl

theorem sortChildren_ordered_list : ∀ l₀ : NodeList, ∀ x ∈ (sortEach l₀).toList,
    ∀ q ∈ flattenFiles x, ∀ l, q.children = Kids.present l →
      l.toList.Pairwise (fun a b => childSortCmp a b ≤ 0)
  | .nil => by simp [sortEach, NodeList.toList]
  | .cons hd tl => by
    intro x hx q hq l hl
    rcases List.mem_cons.mp (by simpa [sortEach, NodeList.toList] using hx) with rfl | hx'
    · exact sortChildren_ordered_node hd q hq l hl
    · exact sortChildren_ordered_list tl x hx' q hq l hl
end

/-- Claim C3 (amended): in every tree produced by `buildFileTree` each
directory's children are ordered directories-first and then by name
(`localeCompare`); and the builder is permutation-invariant for inputs whose
relative paths are pairwise distinct (with duplicated paths the stable sort
preserves different relative orders of the equal-path entries, so permuted
inputs can differ). -/
theorem builder_order_and_determinism (files files' : List InputFile) :
    (∀ q ∈ flattenFiles (buildFileTree files), ∀ l, q.children = Kids.present l →
      l.toList.Pairwise (fun a b =>
        (a.isDirectory = true ∧ b.isDirectory = false) ∨
        (a.isDirectory = b.isDirectory ∧ scmp a.name b.name ≤ 0))) ∧
    (files.Perm files' →
      files.Pairwise (fun f g => f.relativePath ≠ g.relativePath) →
      buildFileTree files' = buildFileTree files) := by
  constructor
  · intro q hq l hl
    refine (sortChildren_ordered_node _ q hq l hl).imp ?_
    intro a b hle
    unfold childSortCmp at hle
    cases hda : a.isDirectory <;> cases hdb : b.isDirectory <;>
      rw [hda, hdb] at hle <;> simp at hle <;> simp [hle]
  · intro hperm hpaths
    have hne : files.Pairwise (fun f g => inputCmp f g ≠ 0) := by
      refine hpaths.imp ?_
      intro f g hfg h0
      exact hfg (scmp_eq_zero h0)
    have hsorted : ssort inputCmp files = ssort inputCmp files' :=
      ssort_eq_of_perm inputCmp_le_trans inputCmp_sign hperm hne
    unfold buildFileTree buildStore
    rw [hsorted]

/-- Witness for C3: hypotheses hold and the conclusion evaluates at a concrete
permuted pair of inputs. -/
theorem builder_order_and_determinism_witness :
    ([witInput1, witInput2].Perm [witInput2, witInput1]) ∧
    ([witInput1, witInput2].Pairwise (fun f g => f.relativePath ≠ g.relativePath)) ∧
    buildFileTree [witInput2, witInput1] = buildFileTree [witInput1, witInput2] :=
  ⟨by decide, by decide,
   (builder_order_and_determinism [witInput1, witInput2] [witInput2, witInput1]).2
     (by decide) (by decide)⟩

/-- Counterexample for C3 as frozen: with two entries sharing the relative
path `"x"`, permuting the input permutes the two equal-path siblings (the
stable pre-sort keeps their input order), so the built trees differ. -/
theorem builder_perm_claim_false :
    ([dupInput1, dupInput2].Perm [dupInput2, dupInput1]) ∧
    buildFileTree [dupInput2, dupInput1] ≠ buildFileTree [dupInput1, dupInput2] := by
  constructor
  · decide
  · decide

/-! ### Claim C2: every child's path extends its parent's path -/
theorem slash_append_data (a b : String) : (a ++ "/" ++ b).data = a.data ++ '/' :: b.data := by
  rw [String.data_append, String.data_append]
  rw [show ("/" : String).data = ['/'] from rfl]
  simp

theorem slash_append_ne_empty (a b : String) : a ++ "/" ++ b ≠ "" := by
  intro h
  have := congrArg String.data h
  rw [slash_append_data] at this
  simp at this

theorem slash_append_ne_left (a b : String) : a ++ "/" ++ b ≠ a := by
  intro h
  have hd := congrArg String.data h
  rw [slash_append_data] at hd
  have hlen := congrArg List.length hd
  simp at hlen

mutual
theorem trav_inv_node : ∀ (e : FsNode) (path : String), path ≠ "" →
    ParentPathInv (traverseDirectory e path) ∧
    (traverseDirectory e path).path = path ++ "/" ++ (traverseDirectory e path).name
  | .file n s m, path => fun _ => by
    constructor
    · intro q hq l hl c hc
      rcases List.mem_cons.mp (by simpa [traverseDirectory, flattenFiles] using hq) with
        rfl | hq'
      · simp [FileNode.children] at hl
      · simp [flattenKids] at hq'
    · rfl
  | .dir n es, path => fun hpath => by
    rw [show traverseDirectory (FsNode.dir n es) path =
        FileNode.mk n (if path = "" then n else path ++ "/" ++ n) true none none
          (.present (NodeList.ofList (ssort childSortCmp
            (traverseEntries es (if path = "" then n else path ++ "/" ++ n)))))
        from rfl]
    rw [if_neg hpath]
    have hcp : (path ++ "/" ++ n : String) ≠ "" := slash_append_ne_empty path n
    constructor
    · intro q hq l hl c hc
      rcases List.mem_cons.mp (by simpa [flattenFiles] using hq) with rfl | hq'
      · have hl' : NodeList.ofList (ssort childSortCmp
            (traverseEntries es (path ++ "/" ++ n))) = l := by
          simpa [FileNode.children] using hl
        rw [← hl', toList_ofList] at hc
        have hc' := (mem_ssort childSortCmp).mp hc
        have := (trav_inv_entries es (path ++ "/" ++ n) hcp c hc').2
        simpa [FileNode.path] using this
      · rw [show flattenKids (Kids.present (NodeList.ofList (ssort childSortCmp
            (traverseEntries es (path ++ "/" ++ n))))) =
            flattenNodeList (NodeList.ofList (ssort childSortCmp
              (traverseEntries es (path ++ "/" ++ n)))) from rfl,
          flattenNodeList_ofList] at hq'
        obtain ⟨x, hx, hqx⟩ := List.mem_flatMap.mp hq'
        have hx' := (mem_ssort childSortCmp).mp hx
        exact (trav_inv_entries es (path ++ "/" ++ n) hcp x hx').1 q hqx l hl c hc
    · rfl

theorem trav_inv_entries : ∀ (es : FsList) (cp : String), cp ≠ "" →
    ∀ c ∈ traverseEntries es cp,
      ParentPathInv c ∧ c.path = cp ++ "/" ++ c.name
  | .nil, cp => fun _ c hc => by simp [traverseEntries] at hc
  | .cons e t, cp => fun hcp c hc => by
    rcases List.mem_cons.mp (by simpa [traverseEntries] using hc) with rfl | hc'
    · exact ⟨(trav_inv_node e cp hcp).1, (trav_inv_node e cp hcp).2⟩
    · exact trav_inv_entries t cp hcp c hc'
end

/-- `traverseDirectory` satisfies C2 at every node of the produced tree, as
long as the root handle's name is non-empty. -/
theorem traverse_parent_path (rootName : String) (entries : FsList) (hname : rootName ≠ "") :
    ParentPathInv (traverseDirectory (.dir rootName entries) "") := by
  rw [show traverseDirectory (FsNode.dir rootName entries) "" =
      FileNode.mk rootName (if "" = "" then rootName else "" ++ "/" ++ rootName) true none none
        (.present (NodeList.ofList (ssort childSortCmp
          (traverseEntries entries (if "" = "" then rootName else "" ++ "/" ++ rootName)))))
      from rfl]
  simp only [if_pos rfl]
  intro q hq l hl c hc
  rcases List.mem_cons.mp (by simpa [flattenFiles] using hq) with rfl | hq'
  · have hl' : NodeList.ofList (ssort childSortCmp (traverseEntries entries rootName)) = l := by
      simpa [FileNode.children] using hl
    rw [← hl', toList_ofList] at hc
    have hc' := (mem_ssort childSortCmp).mp hc
    have := (trav_inv_entries entries rootName hname c hc').2
    simpa [FileNode.path] using this
  · rw [show flattenKids (Kids.present (NodeList.ofList (ssort childSortCmp
        (traverseEntries entries rootName)))) =
        flattenNodeList (NodeList.ofList (ssort childSortCmp
          (traverseEntries entries rootName))) from rfl,
      flattenNodeList_ofList] at hq'
    obtain ⟨x, hx, hqx⟩ := List.mem_flatMap.mp hq'
    have hx' := (mem_ssort childSortCmp).mp hx
    exact (trav_inv_entries entries rootName hname x hx').1 q hqx l hl c hc

theorem get?_snoc_lt {l : List α} {x : α} {i : Nat} (h : i < l.length) :
    (l ++ [x]).get? i = l.get? i := by
  simp [List.get?_eq_getElem?, List.getElem?_append, h]

theorem get?_snoc_self (l : List α) (x : α) : (l ++ [x]).get? l.length = some x := by
  simp [List.get?_eq_getElem?]

theorem get?_some_lt {l : List α} {i : Nat} {r : α} (h : l.get? i = some r) :
    i < l.length := by
  by_contra hge
  rw [List.get?_eq_none.mpr (by omega)] at h
  exact absurd h (by simp)

theorem pushNode_wf {st : BuildState} {key parentKey : String} {node : NodeRec}
    (hwf : StoreWF st)
    (hkey : node.path = key)
    (hrel : node.path = (if parentKey = "root" then node.name else parentKey ++ "/" ++ node.name))
    (hkeyne : node.hasChildren = true → key ≠ parentKey) :
    StoreWF (pushNode st key parentKey node) := by
  set newId := st.store.length with hnewId
  have hstore : (pushNode st key parentKey node).store =
      st.store ++ [{ node with parent := pushPar st key parentKey node }] := rfl
  have hmap : (pushNode st key parentKey node).nodeMap = (key, newId) :: st.nodeMap := rfl
  constructor
  · rw [hmap]
    by_cases hk : key = "root"
    · simp [mapLookup, hk]
    · simpa [mapLookup, hk] using hwf.root_mem
  · intro k id h
    rw [hmap] at h
    by_cases hk : key = k
    · have hid : id = newId := by
        simp [mapLookup, hk] at h
        omega
      subst hid
      refine ⟨{ node with parent := pushPar st key parentKey node }, ?_, ?_⟩
      · rw [hstore]
        exact get?_snoc_self st.store _
      · simpa using hkey.trans hk
    · have h' : mapLookup k st.nodeMap = some id := by
        simpa [mapLookup, hk] using h
      obtain ⟨r, hr, hpath⟩ := hwf.map_sound k id h'
      exact ⟨r, by rw [hstore]; rw [get?_snoc_lt (get?_some_lt hr)]; exact hr, hpath⟩
  · intro i r pid hi hpid
    rw [hstore] at hi
    by_cases hilt : i < st.store.length
    · rw [get?_snoc_lt hilt] at hi
      obtain ⟨pr, hpr, hphc, hpidlt, hprel⟩ := hwf.parent_spec i r pid hi hpid
      exact ⟨pr, by rw [hstore]; rw [get?_snoc_lt (get?_some_lt hpr)]; exact hpr,
        hphc, hpidlt, hprel⟩
    · have hieq : i = newId := by
        have := get?_some_lt hi
        simp at this
        omega
      subst hieq
      rw [get?_snoc_self] at hi
      have hr : r = { node with parent := pushPar st key parentKey node } := by
        exact (Option.some_inj.mp hi).symm
      have hrpar : pushPar st key parentKey node = some pid := by
        rw [hr] at hpid
        simpa using hpid
      unfold pushPar at hrpar
      rcases hlk : mapLookup parentKey ((key, newId) :: st.nodeMap) with _ | pid'
      · simp only [hlk] at hrpar
        exact absurd hrpar (by simp)
      · simp only [hlk] at hrpar
        by_cases hpe : pid' = newId
        · subst hpe
          simp only [if_pos rfl] at hrpar
          by_cases hhc : node.hasChildren = true
          · have hkp : key = parentKey := by
              by_contra hne
              have heq : mapLookup parentKey ((key, newId) :: st.nodeMap) =
                  mapLookup parentKey st.nodeMap := by
                simp [mapLookup, fun h => hne h]
              rw [heq] at hlk
              obtain ⟨pr, hpr, _⟩ := hwf.map_sound parentKey newId hlk
              have := get?_some_lt hpr
              omega
            exact absurd hkp (hkeyne hhc)
          · simp only [Bool.not_eq_true] at hhc
            simp [hhc] at hrpar
        · have hold : mapLookup parentKey st.nodeMap = some pid' := by
            by_cases hkp : key = parentKey
            · exfalso
              have heq : mapLookup parentKey ((key, newId) :: st.nodeMap) = some newId := by
                simp [mapLookup, hkp]
              rw [heq] at hlk
              exact hpe (Option.some_inj.mp hlk.symm)
            · simpa [mapLookup, hkp] using hlk
          obtain ⟨pr, hpr, hprpath⟩ := hwf.map_sound parentKey pid' hold
          have hplt : pid' < st.store.length := get?_some_lt hpr
          simp only [if_neg hpe, hpr] at hrpar
          by_cases hphc : pr.hasChildren = true
          · simp only [hphc, if_true] at hrpar
            have hpide : pid = pid' := (Option.some_inj.mp hrpar).symm
            subst hpide
            refine ⟨pr, ?_, hphc, by omega, ?_⟩
            · rw [hstore, get?_snoc_lt hplt]
              exact hpr
            · rw [hr]
              simpa [hprpath] using hrel
          · simp only [Bool.not_eq_true] at hphc
            simp [hphc] at hrpar

theorem insertDirs_wf : ∀ (parts : List String) (st : BuildState) (cp : String),
    StoreWF st → StoreWF (insertDirs st cp parts).1
  | [], st, cp, hwf => hwf
  | part :: rest, st, cp, hwf => by
    rw [show insertDirs st cp (part :: rest) =
        insertDirs
          (if (mapLookup (if cp = "root" then part else cp ++ "/" ++ part) st.nodeMap).isSome
           then st
           else pushNode st (if cp = "root" then part else cp ++ "/" ++ part) cp
            { name := part, path := if cp = "root" then part else cp ++ "/" ++ part,
              isDirectory := true, size := none, lastModified := none,
              hasChildren := true, parent := none })
          (if cp = "root" then part else cp ++ "/" ++ part) rest from rfl]
    apply insertDirs_wf rest
    by_cases hguard :
        (mapLookup (if cp = "root" then part else cp ++ "/" ++ part) st.nodeMap).isSome
    · rw [if_pos hguard]
      exact hwf
    · rw [if_neg hguard]
      refine pushNode_wf hwf rfl (by by_cases h : cp = "root" <;> simp [h]) ?_
      intro _
      by_cases h : cp = "root"
      · rw [if_pos h, h]
        intro hpart
        rw [if_pos h, hpart] at hguard
        exact hguard (by simpa using hwf.root_mem)
      · rw [if_neg h]
        exact slash_append_ne_left cp part

theorem processFile_wf (st : BuildState) (file : InputFile) (hwf : StoreWF st) :
    StoreWF (processFile st file) := by
  unfold processFile
  refine pushNode_wf (insertDirs_wf _ st "root" hwf) rfl ?_ ?_
  · by_cases h : (insertDirs st "root" (splitStr '/' file.relativePath).dropLast).2 = "root" <;>
      simp [h]
  · intro h
    simp at h

theorem initial_wf : StoreWF initialBuildState := by
  constructor
  · simp [initialBuildState, mapLookup]
  · intro k id h
    simp only [initialBuildState, mapLookup] at h
    by_cases hk : ("root" : String) = k
    · rw [if_pos hk] at h
      refine ⟨rootRec, ?_, hk ▸ rfl⟩
      have hid : id = 0 := by
        have := Option.some_inj.mp h
        omega
      subst hid
      rfl
    · rw [if_neg hk] at h
      exact absurd h (by simp)
  · intro i r pid hi hpid
    have hlen : i < ([rootRec] : List NodeRec).length := get?_some_lt hi
    simp at hlen
    subst hlen
    have : r = rootRec := by
      have h0 : initialBuildState.store.get? 0 = some rootRec := rfl
      rw [h0] at hi
      exact (Option.some_inj.mp hi).symm
    rw [this] at hpid
    simp [rootRec] at hpid

theorem foldl_processFile_wf : ∀ (l : List InputFile) (st : BuildState),
    StoreWF st → StoreWF (l.foldl processFile st)
  | [], _, hwf => hwf
  | f :: rest, st, hwf =>
    foldl_processFile_wf rest (processFile st f) (processFile_wf st f hwf)

theorem buildStore_wf (files : List InputFile) : StoreWF (buildStore files) :=
  foldl_processFile_wf _ _ initial_wf

theorem mem_childIds {store : List NodeRec} {i j : Nat} :
    j ∈ childIds store i ↔ (i < j ∧ ∃ rj, store.get? j = some rj ∧ rj.parent = some i) := by
  unfold childIds
  rw [List.mem_filter, List.mem_range]
  rcases hj : store.get? j with _ | rj
  · simp only [hj]
    constructor
    · rintro ⟨_, hb⟩
      simp at hb
    · rintro ⟨_, rj, hrj, _⟩
      exact absurd hrj (by simp)
  · simp only [hj]
    constructor
    · rintro ⟨_, hb⟩
      simp only [Bool.and_eq_true, decide_eq_true_eq, beq_iff_eq] at hb
      exact ⟨hb.1, rj, rfl, hb.2⟩
    · rintro ⟨hij, rj', hrj', hpar⟩
      have hrr : rj' = rj := (Option.some_inj.mp hrj').symm
      subst hrr
      refine ⟨get?_some_lt hj, ?_⟩
      simp [hij, hpar]

theorem reifyF_eq {store : List NodeRec} {r : NodeRec} {i : Nat} (fuel : Nat)
    (hr : store.get? i = some r) :
    reifyF store (fuel + 1) i =
      FileNode.mk r.name r.path r.isDirectory r.size r.lastModified
        (if r.hasChildren then
          Kids.present (NodeList.ofList ((childIds store i).map (reifyF store fuel)))
         else Kids.absent) := by
  unfold reifyF
  rw [hr]

theorem flattenFiles_eq (t : FileNode) : flattenFiles t = t :: flattenKids t.children := by
  cases t
  rfl

theorem reify_parent_inv (store : List NodeRec)
    (hps : ∀ i r pid, store.get? i = some r → r.parent = some pid →
      ∃ pr, store.get? pid = some pr ∧ pr.hasChildren = true ∧ pid < i ∧
        r.path = (if pr.path = "root" then r.name else pr.path ++ "/" ++ r.name)) :
    ∀ (fuel i : Nat), store.length - i ≤ fuel → BuildParentInv (reifyF store fuel i)
  | 0, i, _ => by
    intro q hq l hl c hc
    rcases List.mem_cons.mp (by simpa [reifyF, flattenFiles] using hq) with rfl | hq'
    · simp [FileNode.children] at hl
    · simp [flattenKids] at hq'
  | fuel + 1, i, hfuel => by
    rcases hr : store.get? i with _ | r
    · intro q hq l hl c hc
      rw [show reifyF store (fuel + 1) i = .mk "" "" false none none .absent by
        unfold reifyF; rw [hr]] at hq
      rcases List.mem_cons.mp (by simpa [flattenFiles] using hq) with rfl | hq'
      · simp [FileNode.children] at hl
      · simp [flattenKids] at hq'
    · rw [reifyF_eq fuel hr]
      by_cases hhc : r.hasChildren = true
      · rw [hhc, if_pos rfl]
        intro q hq l hl c hc
        rcases List.mem_cons.mp (by simpa [flattenFiles] using hq) with rfl | hq'
        · have hl' : NodeList.ofList ((childIds store i).map (reifyF store fuel)) = l := by
            simpa [FileNode.children] using hl
          rw [← hl', toList_ofList] at hc
          obtain ⟨j, hj, hcj⟩ := List.mem_map.mp hc
          obtain ⟨hij, rj, hrj, hpar⟩ := mem_childIds.mp hj
          have hjlt : j < store.length := get?_some_lt hrj
          rcases fuel with _ | fuel'
          · omega
          · obtain ⟨pr, hpr, _, _, hrel⟩ := hps j rj i hrj hpar
            have hpri : pr = r := Option.some_inj.mp (hpr.symm.trans hr)
            subst hpri
            rw [← hcj, reifyF_eq fuel' hrj]
            simpa [FileNode.path, FileNode.name] using hrel
        · rw [show flattenKids (Kids.present (NodeList.ofList
              ((childIds store i).map (reifyF store fuel)))) =
            flattenNodeList (NodeList.ofList ((childIds store i).map (reifyF store fuel)))
            from rfl, flattenNodeList_ofList] at hq'
          obtain ⟨x, hx, hqx⟩ := List.mem_flatMap.mp hq'
          obtain ⟨j, hj, hxj⟩ := List.mem_map.mp hx
          obtain ⟨hij, rj, hrj, _⟩ := mem_childIds.mp hj
          have hjlt : j < store.length := get?_some_lt hrj
          have hinv := reify_parent_inv store hps fuel j (by omega)
          rw [hxj] at hinv
          exact hinv q hqx l hl c hc
      · simp only [Bool.not_eq_true] at hhc
        rw [hhc]
        intro q hq l hl c hc
        rcases List.mem_cons.mp (by simpa [flattenFiles] using hq) with rfl | hq'
        · simp [FileNode.children] at hl
        · simp [flattenKids] at hq'

theorem sortChildren_path (t : FileNode) : (sortChildren t).path = t.path := by
  cases t
  rfl

theorem sortChildren_name (t : FileNode) : (sortChildren t).name = t.name := by
  cases t
  rfl

theorem bpi_child {t : FileNode} {l₀ : NodeList} (hk : t.children = Kids.present l₀)
    (h : BuildParentInv t) : ∀ c ∈ l₀.toList, BuildParentInv c := by
  intro c hc q hq l hl c' hc'
  refine h q ?_ l hl c' hc'
  rw [flattenFiles_eq t, hk]
  exact List.mem_cons.mpr (Or.inr ((mem_flatten_list l₀ q).mpr
    ⟨c, hc, (mem_flatten_node c q).mp hq⟩))

mutual
theorem scpi_node : ∀ t : FileNode, BuildParentInv t → BuildParentInv (sortChildren t)
  | .mk n p d s m k, h => by
    intro q hq l hl c hc
    rw [show sortChildren (FileNode.mk n p d s m k) = FileNode.mk n p d s m (sortKids k)
      from rfl] at hq
    rcases List.mem_cons.mp (by simpa [flattenFiles] using hq) with rfl | hq'
    · cases k with
      | absent => simp [sortKids, FileNode.children] at hl
      | present l₀ =>
        have hl' : NodeList.ofList (ssort childSortCmp (NodeList.toList (sortEach l₀))) = l := by
          simpa [sortKids, FileNode.children] using hl
        rw [← hl', toList_ofList] at hc
        have hc₁ := (mem_ssort childSortCmp).mp hc
        rw [toList_sortEach] at hc₁
        obtain ⟨c₀, hc₀, hcc⟩ := List.mem_map.mp hc₁
        have horig := h (FileNode.mk n p d s m (Kids.present l₀))
          (by rw [flattenFiles_eq]; exact List.mem_cons.mpr (Or.inl rfl))
          l₀ rfl c₀ hc₀
        rw [← hcc, sortChildren_path, sortChildren_name]
        exact horig
    · cases k with
      | absent => simp [sortKids, flattenKids] at hq'
      | present l₀ =>
        rw [show sortKids (Kids.present l₀) = Kids.present (NodeList.ofList
            (ssort childSortCmp (NodeList.toList (sortEach l₀)))) from rfl] at hq'
        rw [show flattenKids (Kids.present (NodeList.ofList
            (ssort childSortCmp (NodeList.toList (sortEach l₀))))) =
          flattenNodeList (NodeList.ofList (ssort childSortCmp
            (NodeList.toList (sortEach l₀)))) from rfl, flattenNodeList_ofList] at hq'
        obtain ⟨x, hx, hqx⟩ := List.mem_flatMap.mp hq'
        have hx' := (mem_ssort childSortCmp).mp hx
        exact scpi_list l₀
          (@bpi_child (FileNode.mk n p d s m (Kids.present l₀)) l₀ rfl h) x hx' q hqx l hl c hc

theorem scpi_list : ∀ l₀ : NodeList, (∀ c ∈ l₀.toList, BuildParentInv c) →
    ∀ x ∈ (sortEach l₀).toList, BuildParentInv x
  | .nil, _, x, hx => by simp [sortEach, NodeList.toList] at hx
  | .cons hd tl, hall, x, hx => by
    rcases List.mem_cons.mp (by simpa [sortEach, NodeList.toList] using hx) with rfl | hx'
    · exact scpi_node hd (hall hd (by simp [NodeList.toList]))
    · exact scpi_list tl (fun c hc => hall c (by simp [NodeList.toList, hc])) x hx'
end

theorem build_parent_inv (files : List InputFile) : BuildParentInv (buildFileTree files) := by
  unfold buildFileTree
  exact scpi_node _ (reify_parent_inv _ (buildStore_wf files).parent_spec _ 0 (by omega))

/-- Claim C2 (amended): in trees produced by `traverseDirectory` every
non-root node's path is its parent's path plus `"/"` plus its own name (the
root handle's name being non-empty); in trees produced by `buildFileTree` this
holds for every node whose parent is not the synthetic root, while the
children of the root (path `"root"`) carry just their own name as path. -/
theorem path_parent_spec :
    (∀ (rootName : String) (entries : FsList), rootName ≠ "" →
      ParentPathInv (traverseDirectory (.dir rootName entries) "")) ∧
    (∀ files : List InputFile, BuildParentInv (buildFileTree files)) :=
  ⟨traverse_parent_path, build_parent_inv⟩

/-- Counterexample for C2 as frozen: in the fallback builder's tree the root
has path `"root"` and its only child is named `"a.txt"` with path `"a.txt"`,
not `"root" + "/" + "a.txt"`. -/
theorem path_parent_claim_false :
    (buildFileTree [singleInput]).path = "root" ∧
    childNames (buildFileTree [singleInput]) = ["a.txt"] ∧
    childPaths (buildFileTree [singleInput]) = ["a.txt"] ∧
    ("a.txt" : String) ≠ "root" ++ "/" ++ "a.txt" := by
  refine ⟨by decide, by decide, by decide, by decide⟩

/-- Witness for C2 at a concrete directory handle named `"top"`. -/
theorem path_parent_spec_witness :
    ("top" : String) ≠ "" ∧
    witTravChild.path =
      (traverseDirectory (.dir "top" witFsEntries) "").path ++ "/" ++ witTravChild.name := by
  have h := path_parent_spec.1 "top" witFsEntries (by decide)
  exact ⟨by decide,
    h (traverseDirectory (.dir "top" witFsEntries) "") (by decide)
      (NodeList.cons witTravChild NodeList.nil) (by decide) witTravChild (by decide)⟩

/-! ### Claim C1: leaf count and path uniqueness of the fallback builder -/
theorem str_append_assoc (a b c : String) : a ++ b ++ c = a ++ (b ++ c) := by
  cases a
  cases b
  cases c
  exact congrArg String.mk (List.append_assoc _ _ _)

theorem splitCh_ne_nil (sep : Char) : ∀ l : List Char, splitCh sep l ≠ []
  | [] => by simp [splitCh]
  | c :: rest => by
    unfold splitCh
    rcases hs : splitCh sep rest with _ | ⟨s, ss⟩
    · simp
    · by_cases hc : c = sep <;> simp [hc]

theorem splitCh_sep_not_mem (sep : Char) : ∀ (l : List Char), ∀ cs ∈ splitCh sep l, sep ∉ cs
  | [], cs, hcs => by
    simp [splitCh] at hcs
    simp [hcs]
  | c :: rest, cs, hcs => by
    have ih := splitCh_sep_not_mem sep rest
    rcases hs : splitCh sep rest with _ | ⟨s, ss⟩
    · exact absurd hs (splitCh_ne_nil sep rest)
    · rw [show splitCh sep (c :: rest) =
          (if c = sep then [] :: s :: ss else (c :: s) :: ss) by
        unfold splitCh
        rw [hs]] at hcs
      by_cases hc : c = sep
      · rw [if_pos hc] at hcs
        rcases List.mem_cons.mp hcs with rfl | hcs'
        · simp
        · exact ih cs (hs ▸ hcs')
      · rw [if_neg hc] at hcs
        rcases List.mem_cons.mp hcs with rfl | hcs'
        · intro hmem
          rcases List.mem_cons.mp hmem with rfl | hmem'
          · exact hc rfl
          · exact ih s (hs ▸ List.mem_cons.mpr (Or.inl rfl)) hmem'
        · exact ih cs (hs ▸ List.mem_cons.mpr (Or.inr hcs'))

theorem splitStr_ne_nil (sep : Char) (s : String) : splitStr sep s ≠ [] := by
  unfold splitStr
  intro h
  exact splitCh_ne_nil sep s.data (List.map_eq_nil.mp h)

theorem splitStr_slashFree (s : String) : ∀ seg ∈ splitStr '/' s, slashFree seg := by
  intro seg hseg
  obtain ⟨cs, hcs, rfl⟩ := List.mem_map.mp hseg
  exact splitCh_sep_not_mem '/' s.data cs hcs

theorem joinSegs_singleton (s : String) : joinSegs [s] = s := rfl

theorem foldl_slash_shift : ∀ (t : List String) (x y : String),
    t.foldl (fun acc seg => acc ++ "/" ++ seg) (x ++ y) =
      x ++ t.foldl (fun acc seg => acc ++ "/" ++ seg) y
  | [], _, _ => rfl
  | s :: t', x, y => by
    rw [List.foldl_cons, List.foldl_cons]
    rw [show x ++ y ++ "/" ++ s = x ++ (y ++ "/" ++ s) by
      rw [str_append_assoc x y "/", str_append_assoc x (y ++ "/") s]]
    exact foldl_slash_shift t' x (y ++ "/" ++ s)

theorem joinSegs_cons_cons (a b : String) (t : List String) :
    joinSegs (a :: b :: t) = a ++ "/" ++ joinSegs (b :: t) := by
  show (b :: t).foldl (fun acc seg => acc ++ "/" ++ seg) a =
    a ++ "/" ++ (t.foldl (fun acc seg => acc ++ "/" ++ seg) b)
  rw [List.foldl_cons]
  exact foldl_slash_shift t (a ++ "/") b

theorem joinSegs_append_singleton : ∀ (l : List String) (x : String), l ≠ [] →
    joinSegs (l ++ [x]) = joinSegs l ++ "/" ++ x
  | [], _, h => absurd rfl h
  | [a], x, _ => by
    show joinSegs (a :: [x]) = _
    rw [joinSegs_cons_cons a x []]
    rfl
  | a :: b :: t, x, _ => by
    show joinSegs (a :: (b :: (t ++ [x]))) = _
    rw [joinSegs_cons_cons a b (t ++ [x]), joinSegs_cons_cons a b t]
    rw [show (b :: (t ++ [x]) : List String) = (b :: t) ++ [x] from rfl]
    rw [joinSegs_append_singleton (b :: t) x (by simp)]
    simp [str_append_assoc]

theorem slash_split_unique : ∀ (x y A B : List Char), '/' ∉ x → '/' ∉ y →
    x ++ '/' :: A = y ++ '/' :: B → x = y ∧ A = B
  | [], [], A, B, _, _, h => by
    simpa using h
  | [], c :: ys, A, B, _, hy, h => by
    simp only [List.nil_append, List.cons_append, List.cons.injEq] at h
    exact absurd (h.1 ▸ List.mem_cons.mpr (Or.inl rfl)) hy
  | c :: xs, [], A, B, hx, _, h => by
    simp only [List.nil_append, List.cons_append, List.cons.injEq] at h
    exact absurd (h.1.symm ▸ List.mem_cons.mpr (Or.inl rfl)) hx
  | c :: xs, d :: ys, A, B, hx, hy, h => by
    simp only [List.cons_append, List.cons.injEq] at h
    obtain ⟨rfl, h2⟩ := h
    obtain ⟨h3, h4⟩ := slash_split_unique xs ys A B
      (fun hm => hx (List.mem_cons.mpr (Or.inr hm)))
      (fun hm => hy (List.mem_cons.mpr (Or.inr hm))) h2
    exact ⟨by rw [h3], h4⟩

theorem string_ext {a b : String} (h : a.data = b.data) : a = b := by
  cases a
  cases b
  exact congrArg String.mk h

theorem slash_mem_append (a b : String) : '/' ∈ (a ++ "/" ++ b).data := by
  rw [slash_append_data]
  simp

theorem joinSegs_inj : ∀ (l₁ l₂ : List String), l₁ ≠ [] → l₂ ≠ [] →
    (∀ s ∈ l₁, slashFree s) → (∀ s ∈ l₂, slashFree s) →
    joinSegs l₁ = joinSegs l₂ → l₁ = l₂
  | [], _, h, _, _, _, _ => absurd rfl h
  | _ :: _, [], _, h, _, _, _ => absurd rfl h
  | [a], [b], _, _, _, _, h => by
    rw [joinSegs_singleton, joinSegs_singleton] at h
    rw [h]
  | [a], b :: c :: t₂, _, _, h₁, _, h => by
    rw [joinSegs_singleton, joinSegs_cons_cons] at h
    have : '/' ∈ a.data := h ▸ slash_mem_append b (joinSegs (c :: t₂))
    exact absurd this (h₁ a (by simp))
  | a :: c :: t₁, [b], _, _, _, h₂, h => by
    rw [joinSegs_singleton, joinSegs_cons_cons] at h
    have : '/' ∈ b.data := h ▸ slash_mem_append a (joinSegs (c :: t₁))
    exact absurd this (h₂ b (by simp))
  | a :: c₁ :: t₁, b :: c₂ :: t₂, _, _, h₁, h₂, h => by
    rw [joinSegs_cons_cons, joinSegs_cons_cons] at h
    have hd := congrArg String.data h
    rw [slash_append_data, slash_append_data] at hd
    obtain ⟨hab, hrest⟩ := slash_split_unique a.data b.data _ _
      (h₁ a (by simp)) (h₂ b (by simp)) hd
    have hab' : a = b := string_ext hab
    have hrest' : joinSegs (c₁ :: t₁) = joinSegs (c₂ :: t₂) := string_ext hrest
    have htails := joinSegs_inj (c₁ :: t₁) (c₂ :: t₂) (by simp) (by simp)
      (fun s hs => h₁ s (List.mem_cons.mpr (Or.inr hs)))
      (fun s hs => h₂ s (List.mem_cons.mpr (Or.inr hs))) hrest'
    rw [hab', htails]

theorem root_slashFree : slashFree "root" := by
  unfold slashFree
  decide

theorem joinSegs_eq_root {l : List String} (hne : l ≠ []) (hsf : ∀ s ∈ l, slashFree s)
    (h : joinSegs l = "root") : l = ["root"] :=
  joinSegs_inj l ["root"] hne (by simp) hsf
    (by intro s hs; simp at hs; simpa [hs] using root_slashFree) h

theorem isPre_take : ∀ (l : List String) (k : Nat), isPre (l.take k) l = true
  | [], k => by cases k <;> rfl
  | a :: as, 0 => rfl
  | a :: as, k + 1 => by simp [isPre, isPre_take as k]

theorem isPre_refl (l : List String) : isPre l l = true := by
  have := isPre_take l l.length
  rwa [List.take_length] at this

theorem invS_class {st : BuildState} {D F : List String} (h : StoreInvS st D F)
    {r : NodeRec} (hr : r ∈ st.store) :
    (r.path = "root" ∧ r.isDirectory = true ∧ r.hasChildren = true) ∨
    (r.path ∈ D ∧ r.isDirectory = true ∧ r.hasChildren = true) ∨
    (r.path ∈ F ∧ r.isDirectory = false ∧ r.hasChildren = false) := by
  have hz : zipOf r ∈ (("root", true, true) :: (D.map (fun p => (p, true, true)) ++
      F.map (fun p => (p, false, false)))) :=
    h.zip_perm.mem_iff.mp (List.mem_map.mpr ⟨r, hr, rfl⟩)
  rcases List.mem_cons.mp hz with hroot | hz'
  · left
    have h1 : r.path = "root" := congrArg Prod.fst hroot
    have h2 : r.isDirectory = true := congrArg (fun z => z.2.1) hroot
    have h3 : r.hasChildren = true := congrArg (fun z => z.2.2) hroot
    exact ⟨h1, h2, h3⟩
  · rcases List.mem_append.mp hz' with hd | hf
    · obtain ⟨p, hp, hpe⟩ := List.mem_map.mp hd
      right; left
      have h1 : r.path = p := (congrArg Prod.fst hpe).symm
      have h2 : r.isDirectory = true := (congrArg (fun z => z.2.1) hpe).symm
      have h3 : r.hasChildren = true := (congrArg (fun z => z.2.2) hpe).symm
      exact ⟨h1 ▸ hp, h2, h3⟩
    · obtain ⟨p, hp, hpe⟩ := List.mem_map.mp hf
      right; right
      have h1 : r.path = p := (congrArg Prod.fst hpe).symm
      have h2 : r.isDirectory = false := (congrArg (fun z => z.2.1) hpe).symm
      have h3 : r.hasChildren = false := (congrArg (fun z => z.2.2) hpe).symm
      exact ⟨h1 ▸ hp, h2, h3⟩

theorem invS_nd_facts {st : BuildState} {D F : List String} (h : StoreInvS st D F) :
    "root" ∉ D ∧ "root" ∉ F ∧ (∀ p ∈ D, p ∉ F) := by
  have hnd := h.nd
  rw [List.nodup_cons] at hnd
  obtain ⟨hroot, hDF⟩ := hnd
  rw [List.nodup_append] at hDF
  exact ⟨fun hm => hroot (List.mem_append.mpr (Or.inl hm)),
    fun hm => hroot (List.mem_append.mpr (Or.inr hm)),
    fun p hp hpf => hDF.2.2 hp hpf⟩

theorem invS_dir_rec {st : BuildState} {D F : List String} (h : StoreInvS st D F)
    {pid : Nat} {pr : NodeRec} (hget : st.store.get? pid = some pr)
    (hp : pr.path = "root" ∨ pr.path ∈ D) : pr.hasChildren = true := by
  obtain ⟨hr1, hr2, hr3⟩ := invS_nd_facts h
  rcases invS_class h (List.get?_mem hget) with ⟨_, _, hc⟩ | ⟨_, _, hc⟩ | ⟨hpf, _, _⟩
  · exact hc
  · exact hc
  · rcases hp with he | hd
    · exact absurd (he ▸ hpf) hr2
    · exact absurd hpf (hr3 _ hd)

theorem pushNode_invS {st : BuildState} {D F D' F' : List String}
    (h : StoreInvS st D F) {key parentKey : String} {node : NodeRec}
    (hkey : node.path = key)
    (hpar0 : node.parent = none)
    (hrel : node.path = (if parentKey = "root" then node.name else parentKey ++ "/" ++ node.name))
    (hfresh : ¬ (key = "root" ∨ key ∈ D ∨ key ∈ F))
    (hparent : parentKey = "root" ∨ parentKey ∈ D)
    (hshape : (node.isDirectory = true ∧ node.hasChildren = true ∧
        D' = D ++ [key] ∧ F' = F) ∨
      (node.isDirectory = false ∧ node.hasChildren = false ∧ D' = D ∧ F' = F ++ [key])) :
    StoreInvS (pushNode st key parentKey node) D' F' := by
  push_neg at hfresh
  obtain ⟨hkroot, hkD, hkF⟩ := hfresh
  have hkp : key ≠ parentKey := by
    rcases hparent with rfl | hpd
    · exact hkroot
    · intro he
      exact hkD (he ▸ hpd)
  have hwf' : StoreWF (pushNode st key parentKey node) :=
    pushNode_wf h.wf hkey hrel (fun _ => hkp)
  have hlen0 : 0 < st.store.length := get?_some_lt h.root0
  have hstore : (pushNode st key parentKey node).store =
      st.store ++ [{ node with parent := pushPar st key parentKey node }] := rfl
  have hmap : (pushNode st key parentKey node).nodeMap =
      (key, st.store.length) :: st.nodeMap := rfl
  have hzip : zipOf { node with parent := pushPar st key parentKey node } =
      (key, node.isDirectory, node.hasChildren) := by
    simp [zipOf, hkey]
  have hkmem : key ∉ ("root" :: (D ++ F)) := by
    intro hm
    rcases List.mem_cons.mp hm with he | hm'
    · exact hkroot he
    · rcases List.mem_append.mp hm' with hd | hf
      · exact hkD hd
      · exact hkF hf
  constructor
  · exact hwf'
  · rw [hstore, get?_snoc_lt hlen0]
    exact h.root0
  · -- Nodup of the extended name lists
    rcases hshape with ⟨_, _, hDe, hFe⟩ | ⟨_, _, hDe, hFe⟩ <;> rw [hDe, hFe]
    · have hperm : ("root" :: ((D ++ [key]) ++ F)).Perm (key :: ("root" :: (D ++ F))) := by
        refine List.Perm.trans (List.Perm.cons "root" ?_) (List.Perm.swap key "root" _)
        rw [List.append_assoc]
        show (D ++ (key :: F)).Perm (key :: (D ++ F))
        exact List.perm_middle
      rw [hperm.nodup_iff]
      exact List.nodup_cons.mpr ⟨hkmem, h.nd⟩
    · have hperm : ("root" :: (D ++ (F ++ [key]))).Perm (key :: ("root" :: (D ++ F))) := by
        refine List.Perm.trans (List.Perm.cons "root" ?_) (List.Perm.swap key "root" _)
        rw [← List.append_assoc]
        exact List.perm_append_singleton key (D ++ F)
      rw [hperm.nodup_iff]
      exact List.nodup_cons.mpr ⟨hkmem, h.nd⟩
  · -- map_iff
    intro p
    rw [hmap]
    by_cases hpk : key = p
    · subst hpk
      constructor
      · intro _
        rcases hshape with ⟨_, _, hDe, hFe⟩ | ⟨_, _, hDe, hFe⟩ <;> rw [hDe, hFe]
        · exact Or.inr (Or.inl (List.mem_append.mpr (Or.inr (by simp))))
        · exact Or.inr (Or.inr (List.mem_append.mpr (Or.inr (by simp))))
      · intro _
        simp [mapLookup]
    · have hstep : mapLookup p ((key, st.store.length) :: st.nodeMap) =
          mapLookup p st.nodeMap := by
        simp [mapLookup, hpk]
      rw [hstep, h.map_iff p]
      rcases hshape with ⟨_, _, hDe, hFe⟩ | ⟨_, _, hDe, hFe⟩ <;> rw [hDe, hFe]
      · constructor
        · rintro (he | hd | hf)
          · exact Or.inl he
          · exact Or.inr (Or.inl (List.mem_append.mpr (Or.inl hd)))
          · exact Or.inr (Or.inr hf)
        · rintro (he | hd | hf)
          · exact Or.inl he
          · rcases List.mem_append.mp hd with hd' | hk
            · exact Or.inr (Or.inl hd')
            · exact absurd (List.mem_singleton.mp hk).symm hpk
          · exact Or.inr (Or.inr hf)
      · constructor
        · rintro (he | hd | hf)
          · exact Or.inl he
          · exact Or.inr (Or.inl hd)
          · exact Or.inr (Or.inr (List.mem_append.mpr (Or.inl hf)))
        · rintro (he | hd | hf)
          · exact Or.inl he
          · exact Or.inr (Or.inl hd)
          · rcases List.mem_append.mp hf with hf' | hk
            · exact Or.inr (Or.inr hf')
            · exact absurd (List.mem_singleton.mp hk).symm hpk
  · -- zip_perm
    rw [hstore, List.map_append]
    rw [show List.map zipOf [{ node with parent := pushPar st key parentKey node }] =
        [(key, node.isDirectory, node.hasChildren)] by simp [hzip]]
    rcases hshape with ⟨hd1, hd2, hDe, hFe⟩ | ⟨hd1, hd2, hDe, hFe⟩ <;> rw [hDe, hFe, hd1, hd2]
    · rw [List.map_append,
        show List.map (fun p => (p, true, true)) [key] = [(key, true, true)] from rfl]
      refine ((h.zip_perm.append_right [(key, true, true)]).trans ?_)
      show (("root", true, true) :: ((List.map (fun p => (p, true, true)) D ++
          List.map (fun p => (p, false, false)) F) ++ [(key, true, true)])).Perm _
      refine List.Perm.cons _ ?_
      refine (List.perm_append_singleton _ _).trans ?_
      refine List.perm_middle.symm.trans ?_
      rw [List.append_assoc]
      exact List.Perm.refl _
    · rw [List.map_append,
        show List.map (fun p => (p, false, false)) [key] = [(key, false, false)] from rfl]
      refine ((h.zip_perm.append_right [(key, false, false)]).trans ?_)
      show (("root", true, true) :: ((List.map (fun p => (p, true, true)) D ++
          List.map (fun p => (p, false, false)) F) ++ [(key, false, false)])).Perm _
      refine List.Perm.cons _ ?_
      rw [List.append_assoc]
  · -- attached
    intro i r hi hi0
    rw [hstore] at hi
    by_cases hilt : i < st.store.length
    · rw [get?_snoc_lt hilt] at hi
      exact h.attached i r hi hi0
    · have hieq : i = st.store.length := by
        have := get?_some_lt hi
        simp at this
        omega
      subst hieq
      rw [get?_snoc_self] at hi
      have hre : r = { node with parent := pushPar st key parentKey node } :=
        (Option.some_inj.mp hi).symm
      rw [hre]
      show (pushPar st key parentKey node).isSome = true
      have hlk : mapLookup parentKey ((key, st.store.length) :: st.nodeMap) =
          mapLookup parentKey st.nodeMap := by
        simp [mapLookup, fun he => hkp he]
      have hsome : (mapLookup parentKey st.nodeMap).isSome = true := by
        rw [h.map_iff parentKey]
        rcases hparent with rfl | hpd
        · exact Or.inl rfl
        · exact Or.inr (Or.inl hpd)
      rcases hpk : mapLookup parentKey st.nodeMap with _ | pid
      · rw [hpk] at hsome
        simp at hsome
      · obtain ⟨pr, hpr, hprpath⟩ := h.wf.map_sound parentKey pid hpk
        have hplt : pid < st.store.length := get?_some_lt hpr
        have hphc : pr.hasChildren = true := by
          refine invS_dir_rec h hpr ?_
          rw [hprpath]
          exact hparent
        unfold pushPar
        simp only [hlk, hpk, if_neg (by omega : ¬ pid = st.store.length), hpr, hphc, if_true]
        rfl

theorem curOf_nil : curOf [] = "root" := rfl

theorem curOf_ne_nil {l : List String} (h : l ≠ []) : curOf l = joinSegs l := if_neg h

theorem insertDirs_cons (st : BuildState) (cur part : String) (rest : List String) :
    insertDirs st cur (part :: rest) =
      insertDirs
        (if (mapLookup (if cur = "root" then part else cur ++ "/" ++ part) st.nodeMap).isSome
         then st
         else pushNode st (if cur = "root" then part else cur ++ "/" ++ part) cur
           { name := part, path := (if cur = "root" then part else cur ++ "/" ++ part),
             isDirectory := true, size := none, lastModified := none, hasChildren := true,
             parent := none })
        (if cur = "root" then part else cur ++ "/" ++ part) rest := rfl

theorem curOf_snoc (pre : List String) (part : String)
    (hpre : pre = [] ∨ joinSegs pre ≠ "root") :
    (if curOf pre = "root" then part else curOf pre ++ "/" ++ part) = curOf (pre ++ [part]) := by
  by_cases hne : pre = []
  · subst hne
    rw [curOf_nil, if_pos rfl]
    show part = curOf [part]
    rw [curOf_ne_nil (by simp), joinSegs_singleton]
  · have hroot : joinSegs pre ≠ "root" := by
      rcases hpre with he | hr
      · exact absurd he hne
      · exact hr
    rw [curOf_ne_nil hne, if_neg hroot, curOf_ne_nil (by simp),
      joinSegs_append_singleton pre part hne]

theorem insertDirsS : ∀ (parts : List String) (st : BuildState) (D F pre : List String),
    StoreInvS st D F →
    (pre = [] ∨ (joinSegs pre ≠ "root" ∧ joinSegs pre ∈ D)) →
    (∀ k, 0 < k → k ≤ parts.length → joinSegs (pre ++ parts.take k) ∉ F) →
    (∀ k, 0 < k → k ≤ parts.length → joinSegs (pre ++ parts.take k) ≠ "root") →
    ∃ st' D', insertDirs st (curOf pre) parts = (st', curOf (pre ++ parts)) ∧
      StoreInvS st' D' F ∧
      (∀ p, p ∈ D' ↔ (p ∈ D ∨ ∃ k, 0 < k ∧ k ≤ parts.length ∧
        p = joinSegs (pre ++ parts.take k))) ∧
      (pre ++ parts = [] ∨ (joinSegs (pre ++ parts) ≠ "root" ∧ joinSegs (pre ++ parts) ∈ D'))
  | [], st, D, F, pre, h, hpre, _, _ => by
    refine ⟨st, D, ?_, h, ?_, ?_⟩
    · rw [List.append_nil]
      rfl
    · intro p
      constructor
      · exact fun hp => Or.inl hp
      · rintro (hp | ⟨k, hk, hkle, _⟩)
        · exact hp
        · simp at hkle
          omega
    · rw [List.append_nil]
      exact hpre
  | part :: rest, st, D, F, pre, h, hpre, hfF, hfR => by
    have hpre' : pre = [] ∨ joinSegs pre ≠ "root" := by
      rcases hpre with he | ⟨h1, _⟩
      · exact Or.inl he
      · exact Or.inr h1
    have hcur := curOf_snoc pre part hpre'
    have htake1 : (part :: rest).take 1 = [part] := rfl
    have hk1root : joinSegs (pre ++ [part]) ≠ "root" := by
      have := hfR 1 (by omega) (by simp only [List.length_cons]; omega)
      rwa [htake1] at this
    have hk1F : joinSegs (pre ++ [part]) ∉ F := by
      have := hfF 1 (by omega) (by simp only [List.length_cons]; omega)
      rwa [htake1] at this
    have hkey_ne_nil : pre ++ [part] ≠ ([] : List String) := by simp
    have hcurj : curOf (pre ++ [part]) = joinSegs (pre ++ [part]) := curOf_ne_nil hkey_ne_nil
    have hshift : ∀ k, (pre ++ [part]) ++ rest.take k = pre ++ (part :: rest).take (k + 1) := by
      intro k
      rw [List.take_succ_cons]
      simp
    have hfF' : ∀ k, 0 < k → k ≤ rest.length →
        joinSegs ((pre ++ [part]) ++ rest.take k) ∉ F := by
      intro k hk hkle
      rw [hshift k]
      exact hfF (k + 1) (by omega) (by simp only [List.length_cons]; omega)
    have hfR' : ∀ k, 0 < k → k ≤ rest.length →
        joinSegs ((pre ++ [part]) ++ rest.take k) ≠ "root" := by
      intro k hk hkle
      rw [hshift k]
      exact hfR (k + 1) (by omega) (by simp only [List.length_cons]; omega)
    by_cases hsome : (mapLookup (curOf (pre ++ [part])) st.nodeMap).isSome = true
    · -- the accumulated path is already bound: it must be a directory in `D`
      have hmemj : joinSegs (pre ++ [part]) ∈ D := by
        rcases (h.map_iff _).mp hsome with he | hd | hf
        · rw [hcurj] at he
          exact absurd he hk1root
        · rwa [hcurj] at hd
        · rw [hcurj] at hf
          exact absurd hf hk1F
      obtain ⟨st', D', heq, hinv, hiff, hlast⟩ :=
        insertDirsS rest st D F (pre ++ [part]) h (Or.inr ⟨hk1root, hmemj⟩) hfF' hfR'
      refine ⟨st', D', ?_, hinv, ?_, ?_⟩
      · rw [insertDirs_cons, hcur, if_pos hsome, heq]
        rw [show (pre ++ [part]) ++ rest = pre ++ (part :: rest) by simp]
      · intro p
        rw [hiff p]
        constructor
        · rintro (hp | ⟨k, hk, hkle, hpe⟩)
          · exact Or.inl hp
          · refine Or.inr ⟨k + 1, by omega, by simp only [List.length_cons]; omega, ?_⟩
            rw [← hshift k]
            exact hpe
        · rintro (hp | ⟨k, hk, hkle, hpe⟩)
          · exact Or.inl hp
          · rcases k with _ | k'
            · omega
            · rcases k' with _ | k''
              · rw [htake1] at hpe
                exact Or.inl (by rw [hpe]; exact hmemj)
              · refine Or.inr ⟨k'' + 1, by omega,
                  by simp only [List.length_cons] at hkle; omega, ?_⟩
                rw [hshift (k'' + 1)]
                exact hpe
      · rw [show pre ++ (part :: rest) = (pre ++ [part]) ++ rest by simp]
        exact hlast
    · -- the accumulated path is unbound: a fresh directory node is pushed
      have hfresh : ¬ (curOf (pre ++ [part]) = "root" ∨ curOf (pre ++ [part]) ∈ D ∨
          curOf (pre ++ [part]) ∈ F) := fun hc => hsome ((h.map_iff _).mpr hc)
      have hparent : curOf pre = "root" ∨ curOf pre ∈ D := by
        by_cases hne : pre = []
        · subst hne
          exact Or.inl curOf_nil
        · rcases hpre with he | ⟨h1, h2⟩
          · exact absurd he hne
          · exact Or.inr (by rw [curOf_ne_nil hne]; exact h2)
      have hinv1 : StoreInvS (pushNode st (curOf (pre ++ [part])) (curOf pre)
          { name := part, path := curOf (pre ++ [part]), isDirectory := true, size := none,
            lastModified := none, hasChildren := true, parent := none })
          (D ++ [curOf (pre ++ [part])]) F :=
        pushNode_invS h rfl rfl hcur.symm hfresh hparent (Or.inl ⟨rfl, rfl, rfl, rfl⟩)
      obtain ⟨st', D', heq, hinv, hiff, hlast⟩ :=
        insertDirsS rest _ (D ++ [curOf (pre ++ [part])]) F (pre ++ [part]) hinv1
          (Or.inr ⟨hk1root, by rw [← hcurj]; simp⟩) hfF' hfR'
      refine ⟨st', D', ?_, hinv, ?_, ?_⟩
      · rw [insertDirs_cons, hcur, if_neg hsome, heq]
        rw [show (pre ++ [part]) ++ rest = pre ++ (part :: rest) by simp]
      · intro p
        rw [hiff p]
        constructor
        · rintro (hp | ⟨k, hk, hkle, hpe⟩)
          · rcases List.mem_append.mp hp with hd | hkmem
            · exact Or.inl hd
            · refine Or.inr ⟨1, by omega, by simp only [List.length_cons]; omega, ?_⟩
              rw [htake1, ← hcurj]
              exact List.mem_singleton.mp hkmem
          · refine Or.inr ⟨k + 1, by omega, by simp only [List.length_cons]; omega, ?_⟩
            rw [← hshift k]
            exact hpe
        · rintro (hp | ⟨k, hk, hkle, hpe⟩)
          · exact Or.inl (List.mem_append.mpr (Or.inl hp))
          · rcases k with _ | k'
            · omega
            · rcases k' with _ | k''
              · refine Or.inl (List.mem_append.mpr (Or.inr ?_))
                rw [htake1] at hpe
                rw [List.mem_singleton, hpe]
                exact hcurj.symm
              · refine Or.inr ⟨k'' + 1, by omega,
                  by simp only [List.length_cons] at hkle; omega, ?_⟩
                rw [hshift (k'' + 1)]
                exact hpe
      · rw [show pre ++ (part :: rest) = (pre ++ [part]) ++ rest by simp]
        exact hlast

theorem take_dropLast_eq (l : List String) (k : Nat) (h : k ≤ l.length - 1) :
    l.dropLast.take k = l.take k := by
  rw [List.dropLast_eq_take, List.take_take]
  congr 1
  omega

theorem getLastD_eq_getLast : ∀ (l : List String) (h : l ≠ []) (d : String),
    l.getLastD d = l.getLast h
  | [a], _, d => rfl
  | a :: b :: tl, _, d => getLastD_eq_getLast (b :: tl) (by simp) a

theorem curOf_file : ∀ (l : List String) (hne : l ≠ []),
    (l.dropLast ≠ [] → joinSegs l.dropLast ≠ "root") →
    (if curOf l.dropLast = "root" then l.getLastD ""
     else curOf l.dropLast ++ "/" ++ l.getLastD "") = joinSegs l
  | [], hne, _ => absurd rfl hne
  | [a], _, _ => by
    rw [show ([a] : List String).dropLast = [] from rfl, curOf_nil, if_pos rfl]
    rfl
  | a :: b :: tl, hne, hroot => by
    have hd : (a :: b :: tl).dropLast ≠ [] := by
      rw [show (a :: b :: tl : List String).dropLast = a :: (b :: tl).dropLast from rfl]
      simp
    have hr := hroot hd
    rw [curOf_ne_nil hd, if_neg hr, getLastD_eq_getLast (a :: b :: tl) hne ""]
    rw [← joinSegs_append_singleton (a :: b :: tl).dropLast ((a :: b :: tl).getLast hne) hd]
    rw [List.dropLast_append_getLast hne]

theorem processFile_eq (st : BuildState) (f : InputFile) :
    processFile st f =
      pushNode (insertDirs st "root" (segsOf f).dropLast).1
        (if (insertDirs st "root" (segsOf f).dropLast).2 = "root" then (segsOf f).getLastD ""
         else (insertDirs st "root" (segsOf f).dropLast).2 ++ "/" ++ (segsOf f).getLastD "")
        (insertDirs st "root" (segsOf f).dropLast).2
        { name := (segsOf f).getLastD "",
          path := (if (insertDirs st "root" (segsOf f).dropLast).2 = "root"
            then (segsOf f).getLastD ""
            else (insertDirs st "root" (segsOf f).dropLast).2 ++ "/" ++ (segsOf f).getLastD ""),
          isDirectory := false, size := some f.size, lastModified := some f.lastModified,
          hasChildren := false, parent := none } := rfl

theorem processFile_invS (st : BuildState) (D F : List String) (done : List InputFile)
    (f : InputFile) (h : StoreInvS st D F)
    (hF : F = done.map (fun g => joinSegs (segsOf g)))
    (hD : ∀ p ∈ D, ∃ g ∈ done, ∃ k, 0 < k ∧ k < (segsOf g).length ∧
      p = joinSegs ((segsOf g).take k))
    (hhead : (segsOf f).head? ≠ some "root")
    (hpw : ∀ g ∈ done, isPre (segsOf f) (segsOf g) = false ∧
      isPre (segsOf g) (segsOf f) = false) :
    ∃ D', StoreInvS (processFile st f) D' (F ++ [joinSegs (segsOf f)]) ∧
      (∀ p ∈ D', ∃ g ∈ done ++ [f], ∃ k, 0 < k ∧ k < (segsOf g).length ∧
        p = joinSegs ((segsOf g).take k)) := by
  have hne : segsOf f ≠ [] := splitStr_ne_nil '/' f.relativePath
  have hsf : ∀ s ∈ segsOf f, slashFree s := splitStr_slashFree f.relativePath
  have hlenpos : 0 < (segsOf f).length := List.length_pos.mpr hne
  obtain ⟨a, tl, hparts⟩ : ∃ a tl, segsOf f = a :: tl := by
    rcases hp : segsOf f with _ | ⟨a, tl⟩
    · exact absurd hp hne
    · exact ⟨a, tl, rfl⟩
  have hheada : a ≠ "root" := by
    have hhead' := hhead
    rw [hparts] at hhead'
    simpa using hhead'
  have htakene : ∀ k, 0 < k → (segsOf f).take k ≠ [] := by
    intro k hk
    rw [hparts]
    rcases k with _ | k'
    · omega
    · rw [List.take_succ_cons]
      simp
  have P1 : ∀ k, 0 < k → joinSegs ((segsOf f).take k) ≠ "root" := by
    intro k hk hcontra
    have h1 := joinSegs_eq_root (htakene k hk)
      (fun s hs => hsf s (List.take_subset _ _ hs)) hcontra
    rw [hparts] at h1
    rcases k with _ | k'
    · omega
    · rw [List.take_succ_cons] at h1
      injection h1 with h1a h1b
      exact hheada h1a
  have P2 : ∀ k, 0 < k → joinSegs ((segsOf f).take k) ∉ F := by
    intro k hk hmem
    rw [hF] at hmem
    obtain ⟨g, hg, hgj⟩ := List.mem_map.mp hmem
    have heqg := joinSegs_inj (segsOf g) ((segsOf f).take k)
      (splitStr_ne_nil '/' g.relativePath) (htakene k hk)
      (splitStr_slashFree g.relativePath)
      (fun s hs => hsf s (List.take_subset _ _ hs)) hgj
    have hip : isPre (segsOf g) (segsOf f) = true := by
      rw [heqg]
      exact isPre_take (segsOf f) k
    rw [(hpw g hg).2] at hip
    exact Bool.false_ne_true hip
  have P3 : joinSegs (segsOf f) ∉ F := by
    have := P2 (segsOf f).length hlenpos
    rwa [List.take_length] at this
  have P4 : joinSegs (segsOf f) ≠ "root" := by
    have := P1 (segsOf f).length hlenpos
    rwa [List.take_length] at this
  have hfF0 : ∀ k, 0 < k → k ≤ (segsOf f).dropLast.length →
      joinSegs (([] : List String) ++ (segsOf f).dropLast.take k) ∉ F := by
    intro k hk hkle
    rw [List.nil_append, take_dropLast_eq _ k (by rwa [List.length_dropLast] at hkle)]
    exact P2 k hk
  have hfR0 : ∀ k, 0 < k → k ≤ (segsOf f).dropLast.length →
      joinSegs (([] : List String) ++ (segsOf f).dropLast.take k) ≠ "root" := by
    intro k hk hkle
    rw [List.nil_append, take_dropLast_eq _ k (by rwa [List.length_dropLast] at hkle)]
    exact P1 k hk
  obtain ⟨st₁, D₁, heq, hinv₁, hiff, hlast⟩ :=
    insertDirsS (segsOf f).dropLast st D F [] h (Or.inl rfl) hfF0 hfR0
  rw [curOf_nil, List.nil_append] at heq
  rw [List.nil_append] at hlast
  have P5 : joinSegs (segsOf f) ∉ D₁ := by
    intro hmem
    rcases (hiff _).mp hmem with hd | ⟨k, hk, hkle, hpe⟩
    · obtain ⟨g, hg, k, hk0, hklt, hpe⟩ := hD _ hd
      have hgtakene : (segsOf g).take k ≠ [] := by
        rcases hgp : segsOf g with _ | ⟨b, tlg⟩
        · exact absurd hgp (splitStr_ne_nil '/' g.relativePath)
        · rcases k with _ | k'
          · omega
          · rw [List.take_succ_cons]
            simp
      have heqg := joinSegs_inj (segsOf f) ((segsOf g).take k) hne hgtakene hsf
        (fun s hs => splitStr_slashFree g.relativePath s (List.take_subset _ _ hs)) hpe
      have hip : isPre (segsOf f) (segsOf g) = true := by
        rw [heqg]
        exact isPre_take (segsOf g) k
      rw [(hpw g hg).1] at hip
      exact Bool.false_ne_true hip
    · rw [List.nil_append] at hpe
      rw [take_dropLast_eq _ k (by rwa [List.length_dropLast] at hkle)] at hpe
      have heqg := joinSegs_inj (segsOf f) ((segsOf f).take k) hne (htakene k hk) hsf
        (fun s hs => hsf s (List.take_subset _ _ hs)) hpe
      have hlen := congrArg List.length heqg
      rw [List.length_take] at hlen
      have hdll := List.length_dropLast (segsOf f)
      omega
  have hrootdl : (segsOf f).dropLast ≠ [] → joinSegs (segsOf f).dropLast ≠ "root" := by
    intro hdne
    have h2 : 0 < (segsOf f).dropLast.length := List.length_pos.mpr hdne
    have hdll := List.length_dropLast (segsOf f)
    have := P1 ((segsOf f).length - 1) (by omega)
    rwa [← List.dropLast_eq_take] at this
  have hfile := curOf_file (segsOf f) hne hrootdl
  have hparent : curOf (segsOf f).dropLast = "root" ∨ curOf (segsOf f).dropLast ∈ D₁ := by
    by_cases hdne : (segsOf f).dropLast = []
    · left
      rw [hdne]
      exact curOf_nil
    · rcases hlast with h0 | ⟨_, hmem⟩
      · exact absurd h0 hdne
      · right
        rw [curOf_ne_nil hdne]
        exact hmem
  refine ⟨D₁, ?_, ?_⟩
  · rw [processFile_eq st f, heq]
    rw [show ((st₁, curOf (segsOf f).dropLast) : BuildState × String).1 = st₁ from rfl]
    rw [show ((st₁, curOf (segsOf f).dropLast) : BuildState × String).2 =
      curOf (segsOf f).dropLast from rfl]
    rw [hfile]
    refine pushNode_invS hinv₁ rfl rfl hfile.symm ?_ hparent (Or.inr ⟨rfl, rfl, rfl, rfl⟩)
    rintro (hc | hc | hc)
    · exact P4 hc
    · exact P5 hc
    · exact P3 hc
  · intro p hp
    rcases (hiff p).mp hp with hd | ⟨k, hk, hkle, hpe⟩
    · obtain ⟨g, hg, k, hks⟩ := hD p hd
      exact ⟨g, List.mem_append.mpr (Or.inl hg), k, hks⟩
    · rw [List.nil_append] at hpe
      rw [take_dropLast_eq _ k (by rwa [List.length_dropLast] at hkle)] at hpe
      refine ⟨f, List.mem_append.mpr (Or.inr (List.mem_singleton.mpr rfl)), k, hk, ?_, hpe⟩
      have hdll := List.length_dropLast (segsOf f)
      omega

theorem initial_invS : StoreInvS initialBuildState [] [] := by
  constructor
  · exact initial_wf
  · rfl
  · simp
  · intro p
    constructor
    · intro hs
      by_cases hp : "root" = p
      · exact Or.inl hp.symm
      · rw [show mapLookup p initialBuildState.nodeMap = none by
          simp [initialBuildState, mapLookup, hp]] at hs
        simp at hs
    · rintro (rfl | h | h)
      · decide
      · exact absurd h (List.not_mem_nil p)
      · exact absurd h (List.not_mem_nil p)
  · exact List.Perm.refl _
  · intro i r hi hi0
    have hlt := get?_some_lt hi
    simp [initialBuildState] at hlt
    omega

theorem foldl_processFile_invS : ∀ (l done : List InputFile) (st : BuildState)
    (D : List String), StoreInvS st (D) (done.map (fun g => joinSegs (segsOf g))) →
    (∀ p ∈ D, ∃ g ∈ done, ∃ k, 0 < k ∧ k < (segsOf g).length ∧
      p = joinSegs ((segsOf g).take k)) →
    (∀ f ∈ l, (segsOf f).head? ≠ some "root") →
    (∀ f ∈ l, ∀ g ∈ done, isPre (segsOf f) (segsOf g) = false ∧
      isPre (segsOf g) (segsOf f) = false) →
    l.Pairwise (fun f g => isPre (segsOf f) (segsOf g) = false ∧
      isPre (segsOf g) (segsOf f) = false) →
    ∃ D', StoreInvS (l.foldl processFile st)
        D' ((done ++ l).map (fun g => joinSegs (segsOf g))) ∧
      (∀ p ∈ D', ∃ g ∈ done ++ l, ∃ k, 0 < k ∧ k < (segsOf g).length ∧
        p = joinSegs ((segsOf g).take k))
  | [], done, st, D, h, hD, _, _, _ => by
    rw [List.foldl_nil, List.append_nil]
    exact ⟨D, h, hD⟩
  | f :: rest, done, st, D, h, hD, hhead, hdone, hpw => by
    obtain ⟨D₁, hinv₁, hD₁⟩ := processFile_invS st D _ done f h rfl hD
      (hhead f (by simp)) (hdone f (by simp))
    have hF1 : (done.map (fun g => joinSegs (segsOf g))) ++ [joinSegs (segsOf f)] =
        (done ++ [f]).map (fun g => joinSegs (segsOf g)) := by
      rw [List.map_append]
      rfl
    rw [hF1] at hinv₁
    have hpw' := List.pairwise_cons.mp hpw
    obtain ⟨D', hinv', hD'⟩ := foldl_processFile_invS rest (done ++ [f]) (processFile st f)
      D₁ hinv₁ hD₁
      (fun g hg => hhead g (by simp [hg]))
      (by
        intro p hp g hg
        rcases List.mem_append.mp hg with hgd | hgf
        · exact hdone p (by simp [hp]) g hgd
        · rw [List.mem_singleton.mp hgf]
          have := hpw'.1 p hp
          exact ⟨this.2, this.1⟩)
      hpw'.2
    refine ⟨D', ?_, ?_⟩
    · rw [List.foldl_cons]
      rw [show (done ++ f :: rest : List InputFile) = (done ++ [f]) ++ rest by simp]
      exact hinv'
    · intro p hp
      obtain ⟨g, hg, hrest⟩ := hD' p hp
      refine ⟨g, ?_, hrest⟩
      rw [show (done ++ f :: rest : List InputFile) = (done ++ [f]) ++ rest by simp]
      exact hg

theorem buildStore_invS (files : List InputFile) (h : ValidInput files) :
    ∃ D F, StoreInvS (buildStore files) D F ∧ F.length = files.length := by
  obtain ⟨hhead, hpw⟩ := h
  have hperm := ssort_perm inputCmp files
  have hhead' : ∀ f ∈ ssort inputCmp files, (segsOf f).head? ≠ some "root" :=
    fun f hf => hhead f (hperm.mem_iff.mp hf)
  have hpw' := (hperm.pairwise_iff
    (fun hab => ⟨hab.2, hab.1⟩ :
      ∀ {a b : InputFile}, (isPre (segsOf a) (segsOf b) = false ∧
        isPre (segsOf b) (segsOf a) = false) →
      (isPre (segsOf b) (segsOf a) = false ∧ isPre (segsOf a) (segsOf b) = false))).mpr hpw
  obtain ⟨D', hinv, _⟩ := foldl_processFile_invS (ssort inputCmp files) [] initialBuildState
    [] initial_invS (fun p hp => absurd hp (List.not_mem_nil p))
    hhead' (fun f _ g hg => absurd hg (List.not_mem_nil g)) hpw'
  rw [List.nil_append] at hinv
  exact ⟨D', (ssort inputCmp files).map (fun g => joinSegs (segsOf g)), hinv,
    by rw [List.length_map]; exact hperm.length_eq⟩

theorem reachb_self (store : List NodeRec) : ∀ (fuel i : Nat),
    reachb store fuel i i = true
  | 0, i => by simp [reachb]
  | fuel + 1, i => by simp [reachb]

theorem reaches_self (store : List NodeRec) (i : Nat) : reaches store i i = true :=
  reachb_self store i i

theorem parentD_lt {store : List NodeRec}
    (hdec : ∀ j r p, store.get? j = some r → r.parent = some p → p < j)
    {j p : Nat} (hp : parentD store j = some p) : p < j := by
  unfold parentD at hp
  rcases hg : store.get? j with _ | r
  · rw [hg] at hp
    exact absurd hp (by simp)
  · rw [hg] at hp
    exact hdec j r p hg hp

theorem reachb_le {store : List NodeRec}
    (hdec : ∀ j r p, store.get? j = some r → r.parent = some p → p < j) :
    ∀ (fuel i j : Nat), reachb store fuel i j = true → i ≤ j
  | 0, i, j, h => by
    simp [reachb] at h
    omega
  | fuel + 1, i, j, h => by
    unfold reachb at h
    rcases Bool.or_eq_true_iff.mp h with h1 | h2
    · exact Nat.le_of_eq (beq_iff_eq.mp h1)
    · rcases hp : parentD store j with _ | p
      · rw [hp] at h2
        simp at h2
      · rw [hp] at h2
        have ha := reachb_le hdec fuel i p h2
        have hb := parentD_lt hdec hp
        omega

theorem reachb_of_beq {store : List NodeRec} {i j : Nat} (h : (i == j) = true) :
    ∀ fuel, reachb store fuel i j = true
  | 0 => by simp [reachb, h]
  | fuel + 1 => by simp [reachb, h]

theorem reachb_mono (store : List NodeRec) : ∀ (fuel fuel' i j : Nat), fuel ≤ fuel' →
    reachb store fuel i j = true → reachb store fuel' i j = true
  | 0, fuel', i, j, _, h => by
    simp [reachb] at h
    exact reachb_of_beq (by simp [h]) fuel'
  | fuel + 1, fuel', i, j, hle, h => by
    unfold reachb at h
    rcases Bool.or_eq_true_iff.mp h with h1 | h2
    · exact reachb_of_beq h1 fuel'
    · rcases hfe : fuel' with _ | fuel''
      · omega
      · unfold reachb
        refine Bool.or_eq_true_iff.mpr (Or.inr ?_)
        rcases hp : parentD store j with _ | p
        · rw [hp] at h2
          simp at h2
        · rw [hp] at h2
          exact reachb_mono store fuel fuel'' i p (by omega) h2

theorem reachb_to_reaches {store : List NodeRec}
    (hdec : ∀ j r p, store.get? j = some r → r.parent = some p → p < j) :
    ∀ (fuel i j : Nat), reachb store fuel i j = true → reaches store i j = true
  | 0, i, j, h => by
    simp [reachb] at h
    subst h
    exact reaches_self store i
  | fuel + 1, i, j, h => by
    unfold reachb at h
    rcases Bool.or_eq_true_iff.mp h with h1 | h2
    · exact reachb_of_beq h1 j
    · rcases hp : parentD store j with _ | p
      · rw [hp] at h2
        simp at h2
      · rw [hp] at h2
        have hrp := reachb_to_reaches hdec fuel i p h2
        have hplt := parentD_lt hdec hp
        have hstep : reachb store (p + 1) i j = true := by
          unfold reachb
          refine Bool.or_eq_true_iff.mpr (Or.inr ?_)
          rw [hp]
          exact hrp
        exact reachb_mono store (p + 1) j i j (by omega) hstep

theorem reaches_le {store : List NodeRec}
    (hdec : ∀ j r p, store.get? j = some r → r.parent = some p → p < j)
    {i j : Nat} (h : reaches store i j = true) : i ≤ j :=
  reachb_le hdec j i j h

theorem reaches_step {store : List NodeRec}
    (hdec : ∀ j r p, store.get? j = some r → r.parent = some p → p < j)
    {i j p : Nat} (hp : parentD store j = some p) (h : reaches store i p = true) :
    reaches store i j = true := by
  have hplt := parentD_lt hdec hp
  have hstep : reachb store (p + 1) i j = true := by
    unfold reachb
    refine Bool.or_eq_true_iff.mpr (Or.inr ?_)
    rw [hp]
    exact h
  exact reachb_mono store (p + 1) j i j (by omega) hstep

theorem reaches_destruct {store : List NodeRec}
    (hdec : ∀ j r p, store.get? j = some r → r.parent = some p → p < j)
    {i j : Nat} (h : reaches store i j = true) (hne : i ≠ j) :
    ∃ p, parentD store j = some p ∧ reaches store i p = true := by
  unfold reaches at h
  rcases hj : j with _ | j'
  · rw [hj] at h
    simp [reachb] at h
    omega
  · rw [hj] at h
    unfold reachb at h
    rcases Bool.or_eq_true_iff.mp h with h1 | h2
    · exact absurd (beq_iff_eq.mp h1) (by omega)
    · rcases hp : parentD store (j' + 1) with _ | p
      · rw [hp] at h2
        simp at h2
      · rw [hp] at h2
        exact ⟨p, rfl, reachb_to_reaches hdec j' i p h2⟩

theorem reaches_trans {store : List NodeRec}
    (hdec : ∀ j r p, store.get? j = some r → r.parent = some p → p < j) :
    ∀ (k i j : Nat), reaches store i j = true → reaches store j k = true →
      reaches store i k = true := by
  intro k
  induction k using Nat.strong_induction_on with
  | _ k ih =>
    intro i j h1 h2
    by_cases hjk : j = k
    · subst hjk
      exact h1
    · obtain ⟨p, hp, hrp⟩ := reaches_destruct hdec h2 hjk
      have hplt := parentD_lt hdec hp
      exact reaches_step hdec hp (ih p hplt i j h1 hrp)

theorem reaches_total {store : List NodeRec}
    (hdec : ∀ j r p, store.get? j = some r → r.parent = some p → p < j) :
    ∀ (a c₁ c₂ : Nat), reaches store c₁ a = true → reaches store c₂ a = true →
      reaches store c₁ c₂ = true ∨ reaches store c₂ c₁ = true := by
  intro a
  induction a using Nat.strong_induction_on with
  | _ a ih =>
    intro c₁ c₂ h1 h2
    by_cases he1 : c₁ = a
    · subst he1
      exact Or.inr h2
    · by_cases he2 : c₂ = a
      · subst he2
        exact Or.inl h1
      · obtain ⟨p, hp, hrp1⟩ := reaches_destruct hdec h1 he1
        obtain ⟨p', hp', hrp2⟩ := reaches_destruct hdec h2 he2
        rw [hp] at hp'
        have hpe : p' = p := Option.some_inj.mp hp'.symm
        rw [hpe] at hrp2
        exact ih p (parentD_lt hdec hp) c₁ c₂ hrp1 hrp2

theorem child_unique_aux {store : List NodeRec}
    (hdec : ∀ j r p, store.get? j = some r → r.parent = some p → p < j)
    {i c₁ c₂ : Nat} (hc₁ : parentD store c₁ = some i) (hc₂ : parentD store c₂ = some i)
    (h : reaches store c₁ c₂ = true) : c₁ = c₂ := by
  by_cases he : c₁ = c₂
  · exact he
  · obtain ⟨p, hp, hrp⟩ := reaches_destruct hdec h he
    rw [hc₂] at hp
    have hpe : i = p := Option.some_inj.mp hp
    subst hpe
    have hle := reaches_le hdec hrp
    have hlt := parentD_lt hdec hc₁
    omega

theorem child_unique {store : List NodeRec}
    (hdec : ∀ j r p, store.get? j = some r → r.parent = some p → p < j)
    {i a c₁ c₂ : Nat} (hc₁ : parentD store c₁ = some i) (hc₂ : parentD store c₂ = some i)
    (h1 : reaches store c₁ a = true) (h2 : reaches store c₂ a = true) : c₁ = c₂ := by
  rcases reaches_total hdec a c₁ c₂ h1 h2 with h | h
  · exact child_unique_aux hdec hc₁ hc₂ h
  · exact (child_unique_aux hdec hc₂ hc₁ h).symm

theorem exists_child {store : List NodeRec}
    (hdec : ∀ j r p, store.get? j = some r → r.parent = some p → p < j) :
    ∀ (a i : Nat), reaches store i a = true → i ≠ a →
      ∃ c, parentD store c = some i ∧ reaches store c a = true := by
  intro a
  induction a using Nat.strong_induction_on with
  | _ a ih =>
    intro i h hne
    obtain ⟨p, hp, hrp⟩ := reaches_destruct hdec h hne
    by_cases hpi : p = i
    · subst hpi
      exact ⟨a, hp, reaches_self store a⟩
    · obtain ⟨c, hc, hrc⟩ := ih p (parentD_lt hdec hp) i hrp (fun he => hpi he.symm)
      exact ⟨c, hc, reaches_step hdec hp hrc⟩

theorem mem_childIds_parentD {store : List NodeRec} {i j : Nat} :
    j ∈ childIds store i ↔ (j < store.length ∧ i < j ∧ parentD store j = some i) := by
  constructor
  · intro h
    obtain ⟨hij, rj, hg, hpar⟩ := mem_childIds.mp h
    refine ⟨get?_some_lt hg, hij, ?_⟩
    unfold parentD
    rw [hg]
    exact hpar
  · rintro ⟨hlen, hij, hp⟩
    unfold parentD at hp
    rcases hg : store.get? j with _ | rj
    · rw [hg] at hp
      exact absurd hp (by simp)
    · rw [hg] at hp
      exact mem_childIds.mpr ⟨hij, rj, hg, hp⟩

theorem count_subIds (store : List NodeRec) (i a : Nat) :
    (subIds store i).count a =
      if a < store.length ∧ reaches store i a = true then 1 else 0 := by
  unfold subIds
  by_cases hc : a < store.length ∧ reaches store i a = true
  · rw [if_pos hc]
    refine List.count_eq_one_of_mem ((List.nodup_range _).filter _) ?_
    rw [List.mem_filter, List.mem_range]
    exact ⟨hc.1, hc.2⟩
  · rw [if_neg hc]
    refine List.count_eq_zero_of_not_mem ?_
    rw [List.mem_filter, List.mem_range]
    exact fun hmem => hc ⟨hmem.1, hmem.2⟩

theorem count_flatMap (l : List Nat) (f : Nat → List Nat) (a : Nat) :
    (l.flatMap f).count a = (l.map (fun b => (f b).count a)).sum := by
  induction l with
  | nil => rfl
  | cons b t ih => simp [List.flatMap_cons, List.count_append, ih]

theorem sum_zeros : ∀ (l : List Nat) (g : Nat → Nat), (∀ c ∈ l, g c = 0) →
    (l.map g).sum = 0
  | [], _, _ => rfl
  | b :: t, g, h => by
    rw [List.map_cons, List.sum_cons, h b (by simp),
      sum_zeros t g (fun c hc => h c (by simp [hc]))]

theorem sum_indicator_unique : ∀ (l : List Nat) (g : Nat → Nat) (c₀ : Nat),
    l.Nodup → c₀ ∈ l → g c₀ = 1 → (∀ c ∈ l, c ≠ c₀ → g c = 0) →
    (l.map g).sum = 1
  | [], _, _, _, hmem, _, _ => absurd hmem (List.not_mem_nil _)
  | b :: t, g, c₀, hnd, hmem, hg1, hg0 => by
    rw [List.map_cons, List.sum_cons]
    rcases List.mem_cons.mp hmem with rfl | hmem'
    · rw [hg1]
      have hz : (t.map g).sum = 0 :=
        sum_zeros t g (fun c hc => hg0 c (List.mem_cons.mpr (Or.inr hc))
          (fun he => (List.nodup_cons.mp hnd).1 (he ▸ hc)))
      rw [hz]
    · have hbne : b ≠ c₀ := fun he => (List.nodup_cons.mp hnd).1 (he ▸ hmem')
      rw [hg0 b (by simp) hbne,
        sum_indicator_unique t g c₀ (List.nodup_cons.mp hnd).2 hmem' hg1
          (fun c hc hne => hg0 c (by simp [hc]) hne)]

theorem subIds_perm {store : List NodeRec}
    (hdec : ∀ j r p, store.get? j = some r → r.parent = some p → p < j)
    {i : Nat} (hi : i < store.length) :
    (subIds store i).Perm (i :: (childIds store i).flatMap (subIds store)) := by
  refine List.perm_iff_count.mpr ?_
  intro a
  rw [count_subIds, List.count_cons, count_flatMap]
  by_cases hai : a = i
  · subst hai
    rw [if_pos ⟨hi, reaches_self store a⟩]
    have hz : ((childIds store a).map (fun c => (subIds store c).count a)).sum = 0 := by
      refine sum_zeros _ _ ?_
      intro c hc
      rw [count_subIds]
      refine if_neg ?_
      rintro ⟨_, hr⟩
      have h1 := reaches_le hdec hr
      have h2 := (mem_childIds_parentD.mp hc).2.1
      omega
    rw [hz]
    simp
  · have hbeq : ¬ ((i == a) = true) := by
      simp only [beq_iff_eq]
      exact fun he => hai he.symm
    by_cases hc : a < store.length ∧ reaches store i a = true
    · rw [if_pos hc]
      obtain ⟨c₀, hc₀p, hc₀r⟩ := exists_child hdec a i hc.2 (fun he => hai he.symm)
      have hc₀mem : c₀ ∈ childIds store i := by
        refine mem_childIds_parentD.mpr ⟨?_, parentD_lt hdec hc₀p, hc₀p⟩
        have := reaches_le hdec hc₀r
        omega
      have hsum : ((childIds store i).map (fun c => (subIds store c).count a)).sum = 1 := by
        refine sum_indicator_unique _ _ c₀ ((List.nodup_range _).filter _) hc₀mem ?_ ?_
        · rw [count_subIds]
          exact if_pos ⟨hc.1, hc₀r⟩
        · intro c hcmem hne
          rw [count_subIds]
          refine if_neg ?_
          rintro ⟨_, hr⟩
          exact hne (child_unique hdec (mem_childIds_parentD.mp hcmem).2.2 hc₀p hr hc₀r)
      rw [hsum, if_neg hbeq]
    · rw [if_neg hc]
      have hz : ((childIds store i).map (fun c => (subIds store c).count a)).sum = 0 := by
        refine sum_zeros _ _ ?_
        intro c hcm
        rw [count_subIds]
        refine if_neg ?_
        rintro ⟨halen, hr⟩
        have hic : reaches store i c = true :=
          reaches_step hdec (mem_childIds_parentD.mp hcm).2.2 (reaches_self store i)
        exact hc ⟨halen, reaches_trans hdec a i c hic hr⟩
      rw [hz, if_neg hbeq]

theorem reaches_zero {store : List NodeRec}
    (hdec : ∀ j r p, store.get? j = some r → r.parent = some p → p < j)
    (hatt : ∀ i r, store.get? i = some r → i ≠ 0 → r.parent.isSome = true) :
    ∀ j, j < store.length → reaches store 0 j = true := by
  intro j
  induction j using Nat.strong_induction_on with
  | _ j ih =>
    intro hj
    by_cases hj0 : j = 0
    · subst hj0
      exact reaches_self store 0
    · rcases hg : store.get? j with _ | r
      · rw [List.get?_eq_get hj] at hg
        exact absurd hg (by simp)
      · have hsome := hatt j r hg hj0
        rcases hp : r.parent with _ | p
        · rw [hp] at hsome
          simp at hsome
        · have hplt := hdec j r p hg hp
          have hrp := ih p hplt (by omega)
          refine reaches_step hdec ?_ hrp
          unfold parentD
          rw [hg]
          exact hp

theorem subIds_zero {store : List NodeRec}
    (hdec : ∀ j r p, store.get? j = some r → r.parent = some p → p < j)
    (hatt : ∀ i r, store.get? i = some r → i ≠ 0 → r.parent.isSome = true) :
    subIds store 0 = List.range store.length := by
  unfold subIds
  refine List.filter_eq_self.mpr ?_
  intro a ha
  exact reaches_zero hdec hatt a (List.mem_range.mp ha)

theorem childIds_nil {store : List NodeRec} {i : Nat} {r : NodeRec}
    (hps : ∀ j rj pid, store.get? j = some rj → rj.parent = some pid →
      ∃ pr, store.get? pid = some pr ∧ pr.hasChildren = true)
    (hr : store.get? i = some r) (hhc : r.hasChildren = false) :
    childIds store i = [] := by
  rw [List.eq_nil_iff_forall_not_mem]
  intro j hj
  obtain ⟨hlen, hij, hp⟩ := mem_childIds_parentD.mp hj
  unfold parentD at hp
  rcases hg : store.get? j with _ | rj
  · rw [hg] at hp
    exact absurd hp (by simp)
  · rw [hg] at hp
    obtain ⟨pr, hpr, hprhc⟩ := hps j rj i hg hp
    rw [hr] at hpr
    have he : r = pr := Option.some_inj.mp hpr
    rw [← he] at hprhc
    rw [hhc] at hprhc
    exact Bool.false_ne_true hprhc

theorem flatMap_perm_congr : ∀ (l : List Nat) (f g : Nat → List (String × Bool)),
    (∀ x ∈ l, (f x).Perm (g x)) → (l.flatMap f).Perm (l.flatMap g)
  | [], _, _, _ => List.Perm.refl _
  | b :: t, f, g, h => by
    rw [List.flatMap_cons, List.flatMap_cons]
    exact (h b (by simp)).append (flatMap_perm_congr t f g (fun x hx => h x (by simp [hx])))

theorem reify_stamp_perm {store : List NodeRec}
    (hdec : ∀ j r p, store.get? j = some r → r.parent = some p → p < j)
    (hatt : ∀ i r, store.get? i = some r → i ≠ 0 → r.parent.isSome = true)
    (hps : ∀ j rj pid, store.get? j = some rj → rj.parent = some pid →
      ∃ pr, store.get? pid = some pr ∧ pr.hasChildren = true) :
    ∀ (fuel i : Nat), i < store.length → store.length - i ≤ fuel →
    ((flattenFiles (reifyF store fuel i)).map (fun n => (n.path, n.isDirectory))).Perm
      ((subIds store i).map (stampId store))
  | 0, i, hi, hfuel => absurd hfuel (by omega)
  | fuel + 1, i, hi, hfuel => by
    rcases hr : store.get? i with _ | r
    · rw [List.get?_eq_get hi] at hr
      exact absurd hr (by simp)
    · rw [reifyF_eq fuel hr]
      have hstamp : stampId store i = (r.path, r.isDirectory) := by
        unfold stampId
        rw [hr]
      by_cases hhc : r.hasChildren = true
      · rw [if_pos hhc]
        have hflat : flattenFiles (FileNode.mk r.name r.path r.isDirectory r.size
            r.lastModified (Kids.present (NodeList.ofList
              ((childIds store i).map (reifyF store fuel))))) =
            FileNode.mk r.name r.path r.isDirectory r.size r.lastModified
              (Kids.present (NodeList.ofList ((childIds store i).map (reifyF store fuel)))) ::
            ((childIds store i).map (reifyF store fuel)).flatMap flattenFiles := by
          have h1 : flattenFiles (FileNode.mk r.name r.path r.isDirectory r.size
              r.lastModified (Kids.present (NodeList.ofList
                ((childIds store i).map (reifyF store fuel))))) =
              FileNode.mk r.name r.path r.isDirectory r.size r.lastModified
                (Kids.present (NodeList.ofList
                  ((childIds store i).map (reifyF store fuel)))) ::
              flattenNodeList (NodeList.ofList
                ((childIds store i).map (reifyF store fuel))) := rfl
          rw [h1, flattenNodeList_ofList]
        rw [hflat, List.map_cons]
        have hmain : ((((childIds store i).map (reifyF store fuel)).flatMap
            flattenFiles).map (fun n => (n.path, n.isDirectory))).Perm
            (((childIds store i).flatMap (subIds store)).map (stampId store)) := by
          rw [List.flatMap_map, List.map_flatMap, List.map_flatMap]
          refine flatMap_perm_congr _ _ _ ?_
          intro c hc
          obtain ⟨hclen, hic, _⟩ := mem_childIds_parentD.mp hc
          exact reify_stamp_perm hdec hatt hps fuel c hclen (by omega)
        refine List.Perm.trans (List.Perm.cons _ hmain) ?_
        refine List.Perm.trans ?_ (((subIds_perm hdec hi).map (stampId store)).symm)
        rw [List.map_cons, hstamp]
        exact List.Perm.refl _
      · rw [if_neg hhc]
        have hf : r.hasChildren = false := eq_false_of_ne_true hhc
        have hcn := childIds_nil hps hr hf
        have hsub : ((subIds store i).map (stampId store)).Perm
            [(r.path, r.isDirectory)] := by
          refine List.Perm.trans ((subIds_perm hdec hi).map (stampId store)) ?_
          rw [hcn]
          rw [show (([] : List Nat).flatMap (subIds store)) = [] from rfl]
          rw [List.map_cons, hstamp]
          exact List.Perm.refl _
        refine List.Perm.trans ?_ hsub.symm
        show ((FileNode.mk r.name r.path r.isDirectory r.size r.lastModified Kids.absent ::
          flattenKids Kids.absent).map (fun n => (n.path, n.isDirectory))).Perm _
        rw [show flattenKids Kids.absent = [] from rfl]
        exact List.Perm.refl _

theorem range_map_stampId (store : List NodeRec) :
    (List.range store.length).map (stampId store) =
      store.map (fun r => (r.path, r.isDirectory)) := by
  refine List.ext_getElem (by simp) ?_
  intro n h1 h2
  rw [List.getElem_map, List.getElem_map, List.getElem_range]
  unfold stampId
  rw [List.get?_eq_getElem?, List.getElem?_eq_getElem (by simpa using h2)]

theorem flattenNodeList_toList : ∀ l : NodeList,
    l.toList.flatMap flattenFiles = flattenNodeList l
  | .nil => rfl
  | .cons h t => by
    rw [show (NodeList.cons h t).toList = h :: t.toList from rfl, List.flatMap_cons,
      flattenNodeList_toList t]
    rfl

theorem sortChildren_isDirectory (t : FileNode) :
    (sortChildren t).isDirectory = t.isDirectory := by
  rcases t with ⟨n, p, d, s, m, k⟩
  rfl

mutual
theorem scstamp_node : ∀ t : FileNode,
    ((flattenFiles (sortChildren t)).map (fun n => (n.path, n.isDirectory))).Perm
      ((flattenFiles t).map (fun n => (n.path, n.isDirectory)))
  | .mk n p d s m k => by
    rw [show sortChildren (FileNode.mk n p d s m k) =
      FileNode.mk n p d s m (sortKids k) from rfl]
    rw [show flattenFiles (FileNode.mk n p d s m (sortKids k)) =
      FileNode.mk n p d s m (sortKids k) :: flattenKids (sortKids k) from rfl]
    rw [show flattenFiles (FileNode.mk n p d s m k) =
      FileNode.mk n p d s m k :: flattenKids k from rfl]
    rw [List.map_cons, List.map_cons]
    show ((p, d) :: (flattenKids (sortKids k)).map (fun q => (q.path, q.isDirectory))).Perm
      ((p, d) :: (flattenKids k).map (fun q => (q.path, q.isDirectory)))
    exact List.Perm.cons _ (scstamp_kids k)

theorem scstamp_kids : ∀ k : Kids,
    ((flattenKids (sortKids k)).map (fun n => (n.path, n.isDirectory))).Perm
      ((flattenKids k).map (fun n => (n.path, n.isDirectory)))
  | .absent => List.Perm.refl _
  | .present l => by
    rw [show sortKids (Kids.present l) = Kids.present (NodeList.ofList
      (ssort childSortCmp (NodeList.toList (sortEach l)))) from rfl]
    rw [show flattenKids (Kids.present (NodeList.ofList
        (ssort childSortCmp (NodeList.toList (sortEach l))))) =
      flattenNodeList (NodeList.ofList
        (ssort childSortCmp (NodeList.toList (sortEach l)))) from rfl]
    rw [flattenNodeList_ofList]
    rw [show flattenKids (Kids.present l) = flattenNodeList l from rfl]
    refine List.Perm.trans
      (List.Perm.map _ (List.Perm.flatMap_right flattenFiles
        (ssort_perm childSortCmp (NodeList.toList (sortEach l))))) ?_
    rw [flattenNodeList_toList (sortEach l)]
    exact scstamp_list l

theorem scstamp_list : ∀ l : NodeList,
    ((flattenNodeList (sortEach l)).map (fun n => (n.path, n.isDirectory))).Perm
      ((flattenNodeList l).map (fun n => (n.path, n.isDirectory)))
  | .nil => List.Perm.refl _
  | .cons h t => by
    rw [show sortEach (NodeList.cons h t) =
      NodeList.cons (sortChildren h) (sortEach t) from rfl]
    rw [show flattenNodeList (NodeList.cons (sortChildren h) (sortEach t)) =
      flattenFiles (sortChildren h) ++ flattenNodeList (sortEach t) from rfl]
    rw [show flattenNodeList (NodeList.cons h t) =
      flattenFiles h ++ flattenNodeList t from rfl]
    rw [List.map_append, List.map_append]
    exact (scstamp_node h).append (scstamp_list t)
end

/-- C1 (amended): for every valid flat input list — no entry's relative path
is a segment-wise prefix of another's (in particular all relative paths are
distinct) and no entry's first segment is the reserved key `"root"` —
`buildFileTree` produces the single root node (path `"root"`, a directory),
the path strings of all nodes in the tree are pairwise distinct, and the
number of non-directory (leaf) nodes in the tree equals the input length. -/
theorem buildFileTree_valid_spec (files : List InputFile) (h : ValidInput files) :
    (buildFileTree files).path = "root" ∧ (buildFileTree files).isDirectory = true ∧
    ((flattenFiles (buildFileTree files)).map FileNode.path).Nodup ∧
    ((flattenFiles (buildFileTree files)).filter (fun n => !n.isDirectory)).length =
      files.length := by
  obtain ⟨D, F, hinv, hFlen⟩ := buildStore_invS files h
  have hdec : ∀ j r p, (buildStore files).store.get? j = some r → r.parent = some p →
      p < j := by
    intro j r p hg hp
    obtain ⟨pr, _, _, hlt, _⟩ := hinv.wf.parent_spec j r p hg hp
    exact hlt
  have hps : ∀ j rj pid, (buildStore files).store.get? j = some rj →
      rj.parent = some pid → ∃ pr, (buildStore files).store.get? pid = some pr ∧
        pr.hasChildren = true := by
    intro j rj pid hg hp
    obtain ⟨pr, hpr, hphc, _, _⟩ := hinv.wf.parent_spec j rj pid hg hp
    exact ⟨pr, hpr, hphc⟩
  have hlen0 : 0 < (buildStore files).store.length := get?_some_lt hinv.root0
  obtain ⟨m, hm⟩ : ∃ m, (buildStore files).store.length = m + 1 :=
    ⟨(buildStore files).store.length - 1, by omega⟩
  have hBFT : buildFileTree files =
      sortChildren (reifyF (buildStore files).store (buildStore files).store.length 0) := rfl
  have hreify0 := reifyF_eq m hinv.root0
  have hpath : (buildFileTree files).path = "root" := by
    rw [hBFT, sortChildren_path, hm, hreify0]
    rfl
  have hdir : (buildFileTree files).isDirectory = true := by
    rw [hBFT, sortChildren_isDirectory, hm, hreify0]
    rfl
  have hperm1 := reify_stamp_perm hdec hinv.attached hps
    (buildStore files).store.length 0 hlen0 (by omega)
  rw [subIds_zero hdec hinv.attached, range_map_stampId] at hperm1
  have hstamp_store : ((buildStore files).store.map
      (fun r => (r.path, r.isDirectory))).Perm
      (("root", true) :: (D.map (fun p => (p, true)) ++ F.map (fun p => (p, false)))) := by
    have h2 := hinv.zip_perm.map (fun z => (z.1, z.2.1))
    simpa [zipOf, Function.comp] using h2
  have hfinal : ((flattenFiles (buildFileTree files)).map
      (fun n => (n.path, n.isDirectory))).Perm
      (("root", true) :: (D.map (fun p => (p, true)) ++ F.map (fun p => (p, false)))) := by
    rw [hBFT]
    exact (scstamp_node _).trans (hperm1.trans hstamp_store)
  refine ⟨hpath, hdir, ?_, ?_⟩
  · have hmapL : ((flattenFiles (buildFileTree files)).map
        (fun n => (n.path, n.isDirectory))).map Prod.fst =
        (flattenFiles (buildFileTree files)).map FileNode.path := by
      rw [List.map_map]
      rfl
    have hmapR : ((("root", true) :: (D.map (fun p => (p, true)) ++
        F.map (fun p => (p, false)))).map Prod.fst) = "root" :: (D ++ F) := by
      simp only [List.map_cons, List.map_append, List.map_map]
      rw [show (Prod.fst ∘ fun p : String => (p, true)) = id from rfl,
        show (Prod.fst ∘ fun p : String => (p, false)) = id from rfl,
        List.map_id, List.map_id]
    have hmap := hfinal.map Prod.fst
    rw [hmapL, hmapR] at hmap
    exact hmap.nodup_iff.mpr hinv.nd
  · rw [← List.countP_eq_length_filter]
    have hcp : (flattenFiles (buildFileTree files)).countP (fun n => !n.isDirectory) =
        ((flattenFiles (buildFileTree files)).map
          (fun n => (n.path, n.isDirectory))).countP (fun z => !z.2) := by
      rw [List.countP_map]
      rfl
    rw [hcp, hfinal.countP_eq]
    rw [show ((("root", true) :: (D.map (fun p => (p, true)) ++
        F.map (fun p => (p, false)))).countP (fun z => !z.2)) = F.length by
      simp only [List.countP_cons, List.countP_append, List.countP_map]
      rw [show ((fun z : String × Bool => !z.2) ∘ fun p : String => (p, true)) =
          (fun p => false) from rfl,
        show ((fun z : String × Bool => !z.2) ∘ fun p : String => (p, false)) =
          (fun p => true) from rfl]
      simp [List.countP_true, List.countP_false]]
    exact hFlen

theorem buildFileTree_valid_spec_witness :
    ValidInput witC1Input ∧
    ((buildFileTree witC1Input).path = "root" ∧
      (buildFileTree witC1Input).isDirectory = true ∧
      ((flattenFiles (buildFileTree witC1Input)).map FileNode.path).Nodup ∧
      ((flattenFiles (buildFileTree witC1Input)).filter
        (fun n => !n.isDirectory)).length = witC1Input.length) :=
  ⟨by unfold ValidInput; decide, buildFileTree_valid_spec witC1Input
    (by unfold ValidInput; decide)⟩

/-- C1 as stated (for every flat list) is false: with input
`["a", "a/b.txt"]` the file node `"a"` is created first, the later walk
re-uses it as the parent directory of `"b.txt"`, but the guarded push finds
no `children` array on it, so the tree has 1 leaf instead of 2; with the
duplicate input `["x", "x"]` two distinct nodes get the same path `"x"`. -/
theorem buildFileTree_claim_false :
    ((flattenFiles (buildFileTree [⟨"a", 1, 1⟩, ⟨"a/b.txt", 2, 2⟩])).filter
      (fun n => !n.isDirectory)).length ≠
      ([⟨"a", 1, 1⟩, ⟨"a/b.txt", 2, 2⟩] : List InputFile).length ∧
    ¬ ((flattenFiles (buildFileTree [⟨"x", 1, 1⟩, ⟨"x", 2, 2⟩])).map
      FileNode.path).Nodup := by
  constructor
  · decide
  · decide

